import Mathlib

/-!
Verification development for the DTP webhook enrichment server.

The JavaScript source (the v4 variant of `server.js`, which the claim line
ranges primarily reference) is shallowly embedded below.  Strings are Lean
strings, JS numbers used as money are modelled by exact rationals, and the
asynchronous write steps of the webhook handler are modelled by an explicit
gateway oracle together with a call trace.  Regular-expression tests from the
source are embedded as executable scanners over lists of characters.
-/

set_option maxHeartbeats 1000000

namespace DTP

/-! ### Character and string utilities -/

/-- ASCII apostrophe, built from its code so the character never appears
literally in this file. -/
def apoC : Char := Char.ofNat 39

def apoS : String := String.mk [apoC]

/-- ASCII lower-casing, as `String.prototype.toLowerCase` acts on the ASCII
range (the only range exercised by the source patterns). -/
def lowerC (c : Char) : Char :=
  if 65 ≤ c.toNat ∧ c.toNat ≤ 90 then Char.ofNat (c.toNat + 32) else c

def upperC (c : Char) : Char :=
  if 97 ≤ c.toNat ∧ c.toNat ≤ 122 then Char.ofNat (c.toNat - 32) else c

def lowerS (s : String) : String := String.mk (s.data.map lowerC)

/-- JS regex word character `\w` = `[A-Za-z0-9_]`. -/
def isWordChar (c : Char) : Bool :=
  (97 ≤ c.toNat && c.toNat ≤ 122) || (65 ≤ c.toNat && c.toNat ≤ 90) ||
  (48 ≤ c.toNat && c.toNat ≤ 57) || c = '_'

/-- JS regex whitespace `\s` (ASCII part). -/
def wsCharB (c : Char) : Bool :=
  c = ' ' || c = '\t' || c = '\n' || c = '\r' || c = Char.ofNat 11 || c = Char.ofNat 12

/-- `leads p s`: the list `p` is an initial segment of `s`. -/
def leads : List Char → List Char → Bool
  | [], _ => true
  | _ :: _, [] => false
  | a :: p, b :: s => a = b && leads (a :: p).tail (b :: s).tail

/-- `hasSub p s`: the list `p` occurs contiguously inside `s`. -/
def hasSub (p : List Char) : List Char → Bool
  | [] => p.isEmpty
  | c :: rest => leads p (c :: rest) || hasSub p rest

def hasSubS (p s : String) : Bool := hasSub p.data s.data

def isDigitB (c : Char) : Bool := 48 ≤ c.toNat && c.toNat ≤ 57

def dval (c : Char) : ℕ := c.toNat - 48

def natCharsGo : ℕ → ℕ → List Char
  | 0, _ => []
  | fuel + 1, m =>
    if m < 10 then [Char.ofNat (48 + m)]
    else natCharsGo fuel (m / 10) ++ [Char.ofNat (48 + m % 10)]

/-- Decimal rendering of a natural number, as JS template interpolation
renders an integral number. -/
def natS (n : ℕ) : String := String.mk (natCharsGo (n + 1) n)

/-- `Array.prototype.join(sep)`. -/
def joinSep (sep : String) : List String → String
  | [] => ""
  | [x] => x
  | x :: y :: rest => x ++ sep ++ joinSep sep (y :: rest)

def trimChars (l : List Char) : List Char :=
  ((l.dropWhile wsCharB).reverse.dropWhile wsCharB).reverse

/-- `String.prototype.trim`. -/
def trimS (s : String) : String := String.mk (trimChars s.data)

/-- `replace(/\s+/g, " ")` on a list of characters; the boolean records
whether the previous character belonged to a whitespace run. -/
def collapseGo : Bool → List Char → List Char
  | _, [] => []
  | prevWs, c :: rest =>
    if wsCharB c then
      if prevWs then collapseGo true rest else ' ' :: collapseGo true rest
    else c :: collapseGo false rest

/-! ### Source helpers (v4 `server.js`) -/

/-- `const clamp = (s, n) => (s || "").toString().trim().replace(/\s+/g, " ").slice(0, n)` -/
def clamp (s : String) (n : ℕ) : String :=
  String.mk ((collapseGo false (trimChars s.data)).take n)

/-- JS `Math.round` (round half toward positive infinity), that is
`⌊q + 1/2⌋`, written through `Rat.num`/`Rat.den` so that it evaluates by
kernel reduction. -/
def jround (q : ℚ) : ℤ := (q + 1/2).num / ((q + 1/2).den : ℤ)

def maxZ (a b : ℤ) : ℤ := if a ≤ b then b else a

def maxQ (a b : ℚ) : ℚ := if a ≤ b then b else a

def minQ (a b : ℚ) : ℚ := if a ≤ b then a else b

/-- v3 helper `round99 = (n) => (Math.max(0, Math.round(n)) + 0.99).toFixed(2)`,
read back as a number by the caller. -/
def round99 (q : ℚ) : ℚ := ((maxZ 0 (jround q) : ℤ) : ℚ) + 99/100

/-- Keep-first deduplication, as `Array.from(new Set(...))`. -/
def dedupGo {α : Type} [DecidableEq α] : List α → List α → List α
  | _, [] => []
  | seen, x :: rest =>
    if x ∈ seen then dedupGo seen rest else x :: dedupGo (x :: seen) rest

/-- `const uniq = (arr) => Array.from(new Set((arr || []).filter(Boolean)))`
on strings (falsy = empty string). -/
def uniq (l : List String) : List String :=
  dedupGo [] (l.filter (fun s => ¬ s = ""))

/-- `uniq` on numbers (falsy = zero). -/
def uniqN (l : List ℕ) : List ℕ :=
  dedupGo [] (l.filter (fun n => ¬ n = 0))

/-- `ELECTRONICS_WORDS = /(iphone|samsung|pixel|galaxy|airpods|ps5|xbox|laptop|camera|tablet|phone)/i` -/
def electronicsWords : List String :=
  ["iphone", "samsung", "pixel", "galaxy", "airpods", "ps5", "xbox",
   "laptop", "camera", "tablet", "phone"]

def elecHit (title : String) : Bool :=
  electronicsWords.any (fun w => hasSubS w (lowerS title))

/-- Alternatives of `STONE_WORDS`, in regex order; the optional apostrophe of
`tiger'?s eye` is expanded into its two concrete forms. -/
def stoneAlts : List String :=
  ["moissanite", "amethyst", "opal", "agate", "carnelian", "rose quartz",
   "quartz", "tiger" ++ apoS ++ "s eye", "tigers eye", "onyx", "malachite",
   "turquoise", "zircon", "cubic zirconia", "cz", "crystal", "garnet",
   "ruby", "sapphire", "emerald"]

/-- First alternative that matches at the head of `l`. -/
def altAt (alts : List String) (l : List Char) : Option String :=
  alts.findSome? (fun a => if leads a.data l then some a else none)

/-- Leftmost match of an alternation: scan positions left to right, trying the
alternatives in order at each position. -/
def findAlt (alts : List String) : List Char → Option String
  | [] => none
  | c :: rest =>
    match altAt alts (c :: rest) with
    | some a => some a
    | none => findAlt alts rest

/-- `replace(/\b\w/g, c => c.toUpperCase())`: upper-case every word character
that starts a word. -/
def capWordsGo : Bool → List Char → List Char
  | _, [] => []
  | prevW, c :: rest =>
    (if isWordChar c ∧ ¬ prevW then upperC c else c) :: capWordsGo (isWordChar c) rest

def capWords (s : String) : String := String.mk (capWordsGo false s.data)

/-- Right single quotation mark, as in the literal outputs of the source. -/
def rsqC : Char := Char.ofNat 0x2019

def rsqS : String := String.mk [rsqC]

/-- Normalisation step of `inferStone` applied to the matched text. -/
def normStone (s : String) : String :=
  if s = "cz" ∨ s = "cubic zirconia" then "Cubic Zirconia"
  else if hasSubS "tiger" s then "Tiger" ++ rsqS ++ "s Eye"
  else if hasSubS "rose quartz" s then "Rose Quartz"
  else capWords s

/-- `function inferStone(text)` of the v4 source. -/
def inferStone (text : String) : Option String :=
  match findAlt stoneAlts (lowerS text).data with
  | none => none
  | some s => some (normStone s)

def nonWordNil : List Char → Bool
  | [] => true
  | c :: _ => ¬ isWordChar c

/-- Scanner for `\bLIT\b` where `LIT` consists of word characters: an
occurrence of `LIT` with a non-word character (or an edge) on both sides. -/
def wordBGo (pat : List Char) : Bool → List Char → Bool
  | _, [] => false
  | prevW, c :: rest =>
    (¬ prevW && leads pat (c :: rest) && nonWordNil ((c :: rest).drop pat.length)) ||
    wordBGo pat (isWordChar c) rest

def hasWordB (pat : String) (s : String) : Bool := wordBGo pat.data false s.data

/-- `function inferMaterial(text)` of the v4 source (lines 736-742). -/
def inferMaterial (text : String) : String :=
  let s := lowerS text
  if hasWordB "moissanite" s && (hasWordB "s925" s || hasSubS "sterling" s) then
    "s925+moissanite"
  else if hasWordB "s925" s || hasSubS "sterling silver" s then "s925+plain"
  else if hasSubS "stainless" s then "steel+plain"
  else "alloy+stone"

/-- `function inferType({ title, product_type, tagsText })` of the v4 source:
only the tag text is lower-cased before the case-sensitive `includes` scans. -/
def inferType (title product_type tagsText : String) : String :=
  let s := title ++ " " ++ product_type ++ " " ++ lowerS tagsText
  if hasSubS "bracelet" s then "Bracelet"
  else if hasSubS "earring" s then "Earrings"
  else if hasSubS "ring" s then "Ring"
  else if hasSubS "anklet" s then "Anklet"
  else if hasSubS "choker" s then "Choker"
  else if hasSubS "tennis" s then "Tennis Necklace"
  else if hasSubS "pendant" s then "Pendant Necklace"
  else if hasSubS "chain" s then "Chain Necklace"
  else if hasSubS "necklace" s then "Necklace"
  else "Jewelry"

/-! ### Length parsing (`parseLengthMM`) -/

def wsDrop (l : List Char) : List Char := l.dropWhile wsCharB

/-- After the three digits of the mm branch: `\s*mm\b`. -/
def mmTailOK (l : List Char) : Bool :=
  match wsDrop l with
  | 'm' :: 'm' :: t => nonWordNil t
  | _ => false

/-- Scanner for `\b(4[0-9]{2}|5[0-9]{2})\s*mm\b`, leftmost match. -/
def tryMM : Bool → List Char → Option ℕ
  | _, [] => none
  | prevW, c1 :: rest =>
    match rest with
    | c2 :: c3 :: t =>
      if ¬ prevW ∧ (c1 = '4' ∨ c1 = '5') ∧ isDigitB c2 ∧ isDigitB c3 ∧ mmTailOK t then
        some (100 * dval c1 + 10 * dval c2 + dval c3)
      else tryMM (isWordChar c1) rest
    | _ => tryMM (isWordChar c1) rest

/-- After the two digits of the cm branch: `\s*cm\b`. -/
def cmTailOK (l : List Char) : Bool :=
  match wsDrop l with
  | 'c' :: 'm' :: t => nonWordNil t
  | _ => false

/-- Scanner for `\b(4[0-9]|5[0-9])\s*cm\b`, leftmost match; the value is
already multiplied by 10 as at the call site. -/
def tryCM : Bool → List Char → Option ℕ
  | _, [] => none
  | prevW, c1 :: rest =>
    match rest with
    | c2 :: t =>
      if ¬ prevW ∧ (c1 = '4' ∨ c1 = '5') ∧ isDigitB c2 ∧ cmTailOK t then
        some ((10 * dval c1 + dval c2) * 10)
      else tryCM (isWordChar c1) rest
    | _ => tryCM (isWordChar c1) rest

/-- After the two digits of the inch branch: `\s*("|inch|in)\b`.  A quote is a
non-word character, so the trailing `\b` after it demands a following word
character; after `inch` or `in` it demands a non-word character or the end. -/
def inchTailOK (l : List Char) : Bool :=
  match wsDrop l with
  | '"' :: t =>
    match t with
    | [] => false
    | d :: _ => isWordChar d
  | 'i' :: 'n' :: t2 =>
    match t2 with
    | 'c' :: 'h' :: t3 => nonWordNil t3
    | _ => nonWordNil t2
  | _ => false

def inchDigitsOK (c1 c2 : Char) : Bool :=
  (c1 = '1' && (54 ≤ c2.toNat && c2.toNat ≤ 57)) ||
  (c1 = '2' && (48 ≤ c2.toNat && c2.toNat ≤ 50))

/-- `Math.round(n * 25.4)` for a natural `n`, computed exactly. -/
def inchVal (n : ℕ) : ℕ := (n * 254 + 5) / 10

/-- Scanner for `\b(1[6-9]|2[0-2])\s*("|inch|in)\b`, leftmost match. -/
def tryInch : Bool → List Char → Option ℕ
  | _, [] => none
  | prevW, c1 :: rest =>
    match rest with
    | c2 :: t =>
      if ¬ prevW ∧ inchDigitsOK c1 c2 ∧ inchTailOK t then
        some (inchVal (10 * dval c1 + dval c2))
      else tryInch (isWordChar c1) rest
    | _ => tryInch (isWordChar c1) rest

/-- `function parseLengthMM(str)` of the v4 source (lines 758-765). -/
def parseLengthMM (s : String) : Option ℕ :=
  let l := (lowerS s).data
  match tryMM false l with
  | some v => some v
  | none =>
    match tryCM false l with
    | some v => some v
    | none => tryInch false l

def parseLengthMMO : Option String → Option ℕ
  | none => none
  | some s => parseLengthMM s

/-! ### Pricing -/

/-- `function ladderPriceForMoissanite(mm)` of the v4 source. -/
def ladderPriceForMoissanite : Option ℕ → ℚ
  | none => 32999/100
  | some m =>
    if m ≤ 460 then 32999/100
    else if m ≤ 510 then 34999/100
    else 36999/100

/-- `function fallbackPrice(material)` of the v4 source. -/
def fallbackPrice (material : String) : ℚ :=
  if material = "s925+moissanite" then 32999/100
  else if material = "s925+plain" then 2499/100
  else if material = "steel+plain" then 1499/100
  else 2199/100

def insQ (x : ℚ) : List ℚ → List ℚ
  | [] => [x]
  | y :: rest => if x ≤ y then x :: y :: rest else y :: insQ x rest

/-- Numeric ascending sort, as `[...prices].sort((a, b) => a - b)`. -/
def sortQ : List ℚ → List ℚ
  | [] => []
  | x :: rest => insQ x (sortQ rest)

/-- Upper median `s[Math.floor(s.length / 2)]` of the sorted sample. -/
def medQ (prices : List ℚ) : ℚ := (sortQ prices).getD (prices.length / 2) 0

/-- v4 `pickPriceFromCompetitors` (lines 897-906): median, markup 1.1, clamp
to [9.99, 399.99], then round and add 0.99. -/
def pickPriceFromCompetitors (prices : List ℚ) : Option ℚ :=
  if prices = [] then none
  else
    some (((jround (minQ (maxQ (medQ prices * (11/10)) (999/100)) (39999/100)) : ℤ) : ℚ) + 99/100)

/-- Post-filter of the v4 `fetchCompetitorPrices`: `x > 4 && x < 800`. -/
def compFilterV4 (l : List ℚ) : List ℚ :=
  l.filter (fun x => decide (4 < x ∧ x < 800))

/-- Post-filter of the v3 `fetchCompetitorPrices`: `x > 2 && x < 2000`. -/
def compFilterV3 (l : List ℚ) : List ℚ :=
  l.filter (fun x => decide (2 < x ∧ x < 2000))

/-- v3 `pickPriceFromCompetitors`: `parseFloat(round99(med * 1.1))`. -/
def pickPriceFromCompetitorsV3 (prices : List ℚ) : Option ℚ :=
  if prices = [] then none else some (round99 (medQ prices * (11/10)))

/-- v3 benchmark derivation: filter the raw observations, then pick. -/
def benchV3 (raw : List ℚ) : Option ℚ :=
  pickPriceFromCompetitorsV3 (compFilterV3 raw)

/-- v4 benchmark derivation: filter the raw observations, then pick. -/
def benchV4 (raw : List ℚ) : Option ℚ :=
  pickPriceFromCompetitors (compFilterV4 raw)

/-- Price sanitisation inside the v4 `updateVariantPrice` (lines 947-951):
replace a non-positive value by 9.99, clamp to [6.99, 499.99], round, add
0.99.  (The `isFinite` guard of the source has no counterpart for exact
rationals.) -/
def sanitisePrice (price : ℚ) : ℚ :=
  let p := if price ≤ 0 then 999/100 else price
  let q := minQ (maxQ p (699/100)) (49999/100)
  ((jround q : ℤ) : ℚ) + 99/100

/-- Per-variant raw price selection in the v4 webhook handler
(lines 1078-1081). -/
def priceForVariant (material : String) (bench : Option ℚ) (mm : Option ℕ) : ℚ :=
  if material = "s925+moissanite" ∧ ¬ mm = none then ladderPriceForMoissanite mm
  else
    match bench with
    | some b => b
    | none => fallbackPrice material

/-! ### Tag inference -/

def addTag (l : List String) (t : String) : List String :=
  if t ∈ l then l else l ++ [t]

def stoneTest (s : String) : Bool :=
  stoneAlts.any (fun a => hasSubS a s)

/-- `function inferTagsRich(text)` of the v4 source (lines 782-813). -/
def inferTagsRich (text : String) : List String :=
  let s := lowerS text
  let t0 : List String := []
  let t1 := if hasSubS "necklace" s then addTag t0 "necklaces" else t0
  let t2 := if hasSubS "bracelet" s then addTag t1 "bracelets" else t1
  let t3 := if hasSubS "earring" s then addTag t2 "earrings" else t2
  let t4 := if hasSubS "ring" s then addTag t3 "rings" else t3
  let t5 := if hasSubS "pendant" s then addTag t4 "pendant" else t4
  let t6 := if hasSubS "chain" s then addTag t5 "chain" else t5
  let t7 := if stoneTest s then addTag (addTag t6 "crystal") "stone" else t6
  let t8 := if hasSubS "moissanite" s then addTag t7 "moissanite" else t7
  let t9 :=
    if hasSubS "s925" s || hasSubS "sterling" s then
      addTag (addTag t8 "s925") "sterling-silver"
    else t8
  let t10 := if hasSubS "stainless" s then addTag t9 "stainless-steel" else t9
  let t11 :=
    if hasSubS "retro" s || hasSubS "vintage" s then
      addTag (addTag t10 "retro") "vintage"
    else t10
  let t12 := if hasSubS "european" s then addTag t11 "european" else t11
  let t13 := if hasSubS "italian" s then addTag t12 "italian" else t12
  let t14 := if hasSubS "palace" s then addTag t13 "palace" else t13
  let t15 :=
    if hasSubS "medallion" s || hasSubS "medal" s then addTag t14 "medallion" else t14
  let t16 :=
    if hasSubS "flower" s || hasSubS "floral" s then addTag t15 "floral" else t15
  let t17 :=
    if hasSubS "sun" s || hasSubS "sunburst" s then addTag t16 "sunburst" else t16
  let t18 := if hasSubS "men" s then addTag t17 "mens" else t17
  let t19 := if hasSubS "women" s then addTag t18 "womens" else t18
  addTag t19 "gift"

/-! ### SEO synthesis (`seoFrom`, v4) -/

/-- Start of a `\s+\|\s+` match at the head of `l`. -/
def vsMatchAt (l : List Char) : Bool :=
  match l with
  | [] => false
  | c :: _ =>
    wsCharB c &&
    (match wsDrop l with
     | '|' :: t =>
       (match t with
        | d :: _ => wsCharB d
        | [] => false)
     | _ => false)

/-- Consume a `\s+\|\s+.*` match starting at the head of `l` (the `.*` stops
before a newline). -/
def vsConsume (l : List Char) : List Char :=
  match wsDrop l with
  | '|' :: t => (wsDrop t).dropWhile (fun c => ¬ c = '\n')
  | _ => l

/-- `title.replace(/\s+\|\s+.*/, "")`: drop the first vendor suffix. -/
def stripVendorGo : List Char → List Char
  | [] => []
  | c :: rest =>
    if vsMatchAt (c :: rest) then vsConsume (c :: rest)
    else c :: stripVendorGo rest

def stripVendor (s : String) : String := String.mk (stripVendorGo s.data)

/-- Material label used by `seoFrom` (v4, lines 819-823). -/
def materialLabelSeo (material : String) : String :=
  if material = "s925+moissanite" then "Moissanite in S925 Sterling Silver"
  else if material = "s925+plain" then "S925 Sterling Silver"
  else if material = "steel+plain" then "Stainless Steel"
  else "Crystal & Alloy"

/-- `function seoFrom({ title, description, material, type, stone })` of the
v4 source (lines 816-833); returns (seo title, seo description). -/
def seoFrom (title description material ty : String) (stone : Option String) :
    String × String :=
  let cleanTitle := trimS (stripVendor title)
  let materialLabel := materialLabelSeo material
  let stoneBit :=
    match stone with
    | some st => st ++ " "
    | none => ""
  let hook :=
    match stone with
    | some st =>
      if hasSubS "moissanite" (lowerS st) then "Brilliant sparkle that rivals diamonds."
      else if hasSubS "retro" (lowerS title) || hasSubS "vintage" (lowerS title) ||
              hasSubS "palace" (lowerS title) then
        "Vintage-inspired detailing with modern durability."
      else "Hypoallergenic, durable and gift-ready."
    | none =>
      if hasSubS "retro" (lowerS title) || hasSubS "vintage" (lowerS title) ||
         hasSubS "palace" (lowerS title) then
        "Vintage-inspired detailing with modern durability."
      else "Hypoallergenic, durable and gift-ready."
  let seoTitle := clamp (cleanTitle ++ " | " ++ stoneBit ++ materialLabel ++ " by DTP Jewelry") 60
  let seoDescription :=
    clamp (cleanTitle ++ " — " ++ ty ++ " crafted in " ++ stoneBit ++ materialLabel ++ ". " ++ hook) 160
  (seoTitle, seoDescription)

/-! ### Description synthesis (`buildProductHTML`, v4) -/

/-- Material label used by `buildProductHTML` (v4, lines 837-841). -/
def materialLabelDesc (material : String) : String :=
  if material = "s925+moissanite" then "S925 sterling silver with moissanite"
  else if material = "s925+plain" then "solid S925 sterling silver"
  else if material = "steel+plain" then "stainless steel"
  else "durable jewelry alloy with polished finish"

def stoneLine : Option String → String
  | some st => st ++ " accents"
  | none => "a high-polish finish"

/-- Double prime character used in the rendered length list. -/
def dpC : Char := Char.ofNat 0x2033

def dpS : String := String.mk [dpC]

/-- One rendered length option, `` `${mm}mm (${inches}″)` `` with
`inches = Math.round(mm / 25.4)` computed exactly. -/
def sizeItem (mm : ℕ) : String :=
  natS mm ++ "mm (" ++ natS ((mm * 10 + 127) / 254) ++ dpS ++ ")"

/-- The `sizes` string of `buildProductHTML` (v4, lines 845-851). -/
def sizesStr (lengthOptionsMM : List ℕ) : String :=
  if lengthOptionsMM = [] then ""
  else "Available lengths: " ++ joinSep ", " (lengthOptionsMM.map sizeItem) ++ "."

/-- The `whyBullets` list of `buildProductHTML` (v4, lines 853-858). -/
def whyBullets (material ty : String) (stone : Option String) : List String :=
  (match stone with
   | some st =>
     if hasSubS "moissanite" (lowerS st) then
       ["Diamond-like brilliance with excellent fire"]
     else []
   | none => []) ++
  [if material = "s925+plain" then "Hypoallergenic and comfortable for daily wear"
   else "Comfortable everyday wear",
   if hasSubS "necklace" (lowerS ty) || hasSubS "pendant" (lowerS ty) ||
      hasSubS "chain" (lowerS ty) then "Versatile piece to layer or wear solo"
   else "Refined profile for any outfit",
   "Arrives gift-ready"]

def bulletItems (bullets : List String) : String :=
  joinSep "\n" (bullets.map (fun b => "<li>" ++ b ++ "</li>"))

def stoneDetail : Option String → String
  | some st => "<li>Stone: " ++ st ++ "</li>"
  | none => ""

def sizesDetail (lengthOptionsMM : List ℕ) : String :=
  if sizesStr lengthOptionsMM = "" then ""
  else "<li>" ++ sizesStr lengthOptionsMM ++ "</li>"

/-- The part of the `buildProductHTML` template that follows the interpolated
title (factored out so that the synthesized markup can be analysed around the
title). -/
def buildProductHTMLTail (ty material : String) (stone : Option String)
    (lengthOptionsMM : List ℕ) : String :=
  "</strong> — a " ++ lowerS ty ++ " crafted from " ++
  materialLabelDesc material ++ " with " ++ stoneLine stone ++
  ". Classic design, refined detailing and durable construction make it an easy upgrade to your everyday style.</p>\n\n<p><strong>Why you" ++
  rsqS ++ "ll love it</strong></p>\n<ul>\n  " ++
  bulletItems (whyBullets material ty stone) ++
  "\n</ul>\n\n<p><strong>Details</strong></p>\n<ul>\n  <li>Material: " ++
  materialLabelDesc material ++ "</li>\n  " ++ stoneDetail stone ++ "\n  " ++
  sizesDetail lengthOptionsMM ++
  "\n  <li>Closure & fit: secure, comfortable wear</li>\n</ul>\n\n<p><strong>Care</strong></p>\n<p>Wipe with a soft dry cloth after wear and store separately to protect the finish and setting.</p>\n"

/-- `function buildProductHTML({ title, type, material, stone, lengthOptionsMM })`
of the v4 source (lines 836-879). -/
def buildProductHTML (title ty material : String) (stone : Option String)
    (lengthOptionsMM : List ℕ) : String :=
  "\n<p><strong>" ++ title ++ buildProductHTMLTail ty material stone lengthOptionsMM

/-! ### HTML cleanup (`stripImages` and tag stripping) -/

/-- `leads` up to ASCII case: the (lower-case) pattern occurs at the head of
`l` once `l` is lower-cased. -/
def leadsCI (p l : List Char) : Bool := leads p (l.map lowerC)

/-- Drop through the first (case-insensitive) occurrence of `close`,
returning the suffix after it. -/
def dropThrough (close : List Char) : List Char → Option (List Char)
  | [] => none
  | c :: rest =>
    if leadsCI close (c :: rest) then some ((c :: rest).drop close.length)
    else dropThrough close rest

/-- One global pass of `replace(/OPEN[\s\S]*?CLOSE/gi, "")`: at each
occurrence of `open`, cut through the earliest following `close`. -/
def cutPairsGo (opn close : List Char) : ℕ → List Char → List Char
  | 0, l => l
  | _ + 1, [] => []
  | fuel + 1, c :: rest =>
    if leadsCI opn (c :: rest) then
      match dropThrough close ((c :: rest).drop opn.length) with
      | some suffix => cutPairsGo opn close fuel suffix
      | none => c :: rest
    else c :: cutPairsGo opn close fuel rest

def cutPairs (opn close : String) (s : String) : String :=
  String.mk (cutPairsGo opn.data close.data (s.data.length + 1) s.data)

/-- `function stripImages(html)` of the v4 source (lines 720-724): remove
`<figure ... </figure>` spans, then `<img ... >` spans. -/
def stripImages (html : String) : String :=
  cutPairs "<img" ">" (cutPairs "<figure" "</figure>" html)

/-- `replace(/<[^>]+>/g, " ")`: every tag-like span becomes one space. -/
def stripTagsGo : ℕ → List Char → List Char
  | 0, l => l
  | _ + 1, [] => []
  | fuel + 1, c :: rest =>
    if c = '<' then
      let mid := rest.takeWhile (fun d => ¬ d = '>')
      match rest.drop mid.length with
      | '>' :: t =>
        if mid = [] then '<' :: stripTagsGo fuel rest
        else ' ' :: stripTagsGo fuel t
      | _ => '<' :: stripTagsGo fuel rest
    else c :: stripTagsGo fuel rest

def stripTags (s : String) : String :=
  String.mk (stripTagsGo (s.data.length + 1) s.data)

/-! ### Event model and the pure part of the webhook handler -/

structure Variant where
  gid : Option ℕ
  vtitle : Option String
  option1 : Option String
  option2 : Option String
  option3 : Option String

structure Event where
  title : String
  body_html : String
  product_type : String
  tags : String
  variants : List Variant

/-- Length inference for one variant: the title is tried first, then the
three option strings (v4, line 1077). -/
def vlen (v : Variant) : Option ℕ :=
  match parseLengthMMO v.vtitle with
  | some n => some n
  | none =>
    match parseLengthMMO v.option1 with
    | some n => some n
    | none =>
      match parseLengthMMO v.option2 with
      | some n => some n
      | none => parseLengthMMO v.option3

/-- `desc` of the v4 handler (lines 1030-1032): strip images, flatten tags,
clamp to 1200 characters. -/
def descText (e : Event) : String :=
  clamp (stripTags (stripImages e.body_html)) 1200

/-- `combined` of the v4 handler (line 1034). -/
def combined (e : Event) : String :=
  e.title ++ " " ++ e.product_type ++ " " ++ e.tags ++ " " ++ descText e

/-- `(p.tags || "").split(",").map(t => t.trim()).filter(Boolean)`. -/
def splitTags (tags : String) : List String :=
  ((tags.splitOn ",").map trimS).filter (fun t => ¬ t = "")

/-- Final merged tag list of the v4 handler (lines 1040-1042). -/
def mergedTags (e : Event) : List String :=
  uniq (splitTags e.tags ++ inferTagsRich (combined e))

/-- `mmOptions` of the v4 handler (lines 1060-1064). -/
def mmOptions (e : Event) : List ℕ :=
  uniqN ((e.variants.map vlen).filterMap id)

/-- The on-page description HTML synthesized and written by the v4 handler
(line 1065). -/
def descriptionHTMLFor (e : Event) : String :=
  buildProductHTML e.title (inferType e.title e.product_type e.tags)
    (inferMaterial (combined e)) (inferStone (combined e)) (mmOptions e)

/-! ### Gateway oracle and write orchestration -/

/-- Outcome of the resource-style (REST) variant price write. -/
inductive RRes
  | ok
  | notFound
  | err
deriving DecidableEq

structure Image where
  iid : ℕ
  alt : Option String

/-- One external call issued by the handler; price writes carry the written
price. -/
inductive GCall
  | compFetch
  | seoUpdate
  | descWrite
  | tagsWrite
  | priceRest (i : ℕ) (p : ℚ)
  | priceGql (i : ℕ) (p : ℚ)
  | metafield
  | collFind (t : String)
  | collAdd (t : String)
  | imagesGet
  | altSet (i : ℕ)
deriving DecidableEq

/-- Responses of the external world, one field per kind of call.  `none` for
`compPrices` or `images` models a failing request; `collFind` distinguishes a
failing request (`none`), a missing collection (`some none`) and a found
collection id. -/
structure Gateway where
  serpOn : Bool
  compPrices : Option (List ℚ)
  seoOk : Bool
  descOk : Bool
  tagsOk : Bool
  priceRest : ℕ → RRes
  priceGql : ℕ → Bool
  metafieldOk : Bool
  collFind : String → Option (Option ℕ)
  collAdd : String → Bool
  images : Option (List Image)
  altSet : ℕ → Bool

/-- The per-variant price loop of the v4 handler (lines 1074-1083) together
with `updateVariantPrice` (lines 945-980): REST first; on a 404 exactly one
GraphQL fallback; any other REST failure, or a fallback failure, propagates
and aborts the loop. -/
def runVariants (g : Gateway) (material : String) (bench : Option ℚ) :
    List (ℕ × Variant) → List GCall × Bool
  | [] => ([], true)
  | (i, v) :: rest =>
    match v.gid with
    | none => runVariants g material bench rest
    | some _ =>
      let p := sanitisePrice (priceForVariant material bench (vlen v))
      match g.priceRest i with
      | RRes.ok =>
        let r := runVariants g material bench rest
        (GCall.priceRest i p :: r.1, r.2)
      | RRes.err => ([GCall.priceRest i p], false)
      | RRes.notFound =>
        if g.priceGql i then
          let r := runVariants g material bench rest
          (GCall.priceRest i p :: GCall.priceGql i p :: r.1, r.2)
        else ([GCall.priceRest i p, GCall.priceGql i p], false)

/-- `addToCollectionIfExists` (v4, lines 994-1002): look up by title; a failed
request throws, a missing collection is skipped silently, a found collection
is added to (and that write may throw). -/
def collStep (g : Gateway) (t : String) : List GCall × Bool :=
  match g.collFind t with
  | none => ([GCall.collFind t], false)
  | some none => ([GCall.collFind t], true)
  | some (some _) => ([GCall.collFind t, GCall.collAdd t], g.collAdd t)

/-- Per-image loop of `setAltTextIfMissing` (v4, lines 986-991). -/
def altLoop (g : Gateway) : List Image → List GCall × Bool
  | [] => ([], true)
  | img :: rest =>
    if trimS (img.alt.getD "") = "" then
      if g.altSet img.iid then
        let r := altLoop g rest
        (GCall.altSet img.iid :: r.1, r.2)
      else ([GCall.altSet img.iid], false)
    else altLoop g rest

/-- `setAltTextIfMissing` (v4, lines 982-992): list the product images, then
fill in the missing alt texts. -/
def altStep (g : Gateway) : List GCall × Bool :=
  match g.images with
  | none => ([GCall.imagesGet], false)
  | some imgs =>
    let r := altLoop g imgs
    (GCall.imagesGet :: r.1, r.2)

def benchCalls (g : Gateway) : List GCall :=
  if g.serpOn then [GCall.compFetch] else []

/-- The competitor benchmark available to the handler: the fetched sample is
filtered inside `fetchCompetitorPrices` and then fed to
`pickPriceFromCompetitors` (v4, lines 1046-1051). -/
def benchOf (g : Gateway) : Option ℚ :=
  if g.serpOn then pickPriceFromCompetitors (compFilterV4 (g.compPrices.getD []))
  else none

/-- The v4 webhook handler `app.post("/webhook/products/create", ...)`
(lines 1020-1097): the boolean is the reported outcome (`true` = HTTP 200,
`false` = HTTP 500), the list is the trace of external calls in order.
`updateProductSEO` only logs its errors, so the SEO step never aborts the
run; every REST helper throws on failure, which the surrounding `try` turns
into a 500. -/
def handle (e : Event) (g : Gateway) : Bool × List GCall :=
  if elecHit e.title then (true, [])
  else
    let material := inferMaterial (combined e)
    if g.serpOn ∧ g.compPrices = none then (false, [GCall.compFetch])
    else
      let bench := benchOf g
      let t0 := benchCalls g ++ [GCall.seoUpdate]
      if ¬ g.descOk then (false, t0 ++ [GCall.descWrite])
      else
        let t1 := t0 ++ [GCall.descWrite, GCall.tagsWrite]
        if ¬ g.tagsOk then (false, t1)
        else
          let rv := runVariants g material bench e.variants.enum
          if ¬ rv.2 then (false, t1 ++ rv.1)
          else
            if ¬ g.metafieldOk then (false, t1 ++ rv.1 ++ [GCall.metafield])
            else
              let c1 := collStep g "Necklaces"
              if ¬ c1.2 then (false, t1 ++ rv.1 ++ [GCall.metafield] ++ c1.1)
              else
                let c2 :=
                  if material = "s925+moissanite" then collStep g "Moissanite Jewelry"
                  else ([], true)
                if ¬ c2.2 then
                  (false, t1 ++ rv.1 ++ [GCall.metafield] ++ c1.1 ++ c2.1)
                else
                  let a := altStep g
                  (a.2, t1 ++ rv.1 ++ [GCall.metafield] ++ c1.1 ++ c2.1 ++ a.1)

/-- The price carried by a price-write call, if any. -/
def priceOf : GCall → Option ℚ
  | GCall.priceRest _ p => some p
  | GCall.priceGql _ p => some p
  | _ => none

/-- All variant prices the handler writes (over both write paths) in a run. -/
def writtenPrices (e : Event) (g : Gateway) : List ℚ :=
  (handle e g).2.filterMap priceOf

def isGqlFor (i : ℕ) : GCall → Bool
  | GCall.priceGql j _ => j = i
  | _ => false

def isPriceFor (i : ℕ) : GCall → Bool
  | GCall.priceGql j _ => j = i
  | GCall.priceRest j _ => j = i
  | _ => false

/-- Number of structured-mutation (GraphQL) fallback price writes issued for
the variant at position `i`. -/
def countGql (i : ℕ) (t : List GCall) : ℕ := t.countP (isGqlFor i)

/-! ### Definitions following the wording of the specification

These are not translations of the source; they transcribe the rules exactly
as the specification states them, to be compared with the source functions. -/

/-- Gemstone vocabulary of specification section 4.1. -/
def specGemstoneVocab : List String :=
  ["moissanite", "amethyst", "opal", "agate", "carnelian", "rose quartz",
   "quartz", "tiger" ++ apoS ++ "s eye", "onyx", "malachite", "turquoise",
   "zircon", "cubic zirconia", "crystal", "garnet", "ruby", "sapphire",
   "emerald"]

/-- Material inference exactly as claim C5 states it: rule one fires for any
gemstone name of the vocabulary together with a purity marker or
"sterling". -/
def materialSpecC5 (text : String) : String :=
  let s := lowerS text
  if specGemstoneVocab.any (fun w => hasSubS w s) &&
     (hasWordB "s925" s || hasSubS "sterling" s) then "s925+moissanite"
  else if hasWordB "s925" s || hasSubS "sterling silver" s then "s925+plain"
  else if hasSubS "stainless" s then "steel+plain"
  else if (specGemstoneVocab.any (fun w => hasSubS w s)) ||
          hasSubS "alloy" s || hasSubS "plated" s then "alloy+stone"
  else "alloy+stone"

/-- Material inference as claim C5 reads once its first rule is restricted to
the specific gemstone moissanite (the amendment): the remaining rules,
including the explicit gemstone/crystal/alloy/plating rule and the identical
default, are kept as the claim states them. -/
def materialSpecC5Amended (text : String) : String :=
  let s := lowerS text
  if hasWordB "moissanite" s && (hasWordB "s925" s || hasSubS "sterling" s) then
    "s925+moissanite"
  else if hasWordB "s925" s || hasSubS "sterling silver" s then "s925+plain"
  else if hasSubS "stainless" s then "steel+plain"
  else if (specGemstoneVocab.any (fun w => hasSubS w s)) ||
          hasSubS "alloy" s || hasSubS "plated" s then "alloy+stone"
  else "alloy+stone"

/-- The fixed material enum of the specification data model, in the concrete
strings the source uses. -/
def materialEnum : List String :=
  ["s925+moissanite", "s925+plain", "steel+plain", "alloy+stone"]

/-- Per-variant length inference exactly as claim C8 states it: the three
patterns are tried in priority order, and the first PATTERN that matches any
of the supplied strings wins (millimetres over centimetres over inches, even
across different strings). -/
def vlenSpecC8 (v : Variant) : Option ℕ :=
  let strs := [v.vtitle, v.option1, v.option2, v.option3].filterMap id
  let tryOne := fun (f : List Char → Option ℕ) =>
    strs.findSome? (fun s => f (lowerS s).data)
  match tryOne (tryMM false) with
  | some n => some n
  | none =>
    match tryOne (tryCM false) with
    | some n => some n
    | none => tryOne (tryInch false)

/-! ### Concrete fixtures for counterexamples and witnesses -/

def mkVariant (g : Option ℕ) (t o1 : Option String) : Variant :=
  { gid := g, vtitle := t, option1 := o1, option2 := none, option3 := none }

/-- A variant whose title bears an inch length while an option bears a
millimetre length. -/
def vC8 : Variant := mkVariant (some 1) (some "18 inch") (some "450mm")

/-- A plain jewelry event with one variant. -/
def evPlain : Event :=
  { title := "ring", body_html := "", product_type := "", tags := "",
    variants := [mkVariant (some 1) none none] }

/-- A jewelry event with two variants, both carrying identifiers. -/
def evTwo : Event :=
  { title := "ring", body_html := "", product_type := "", tags := "",
    variants := [mkVariant (some 11) none none, mkVariant (some 12) none none] }

/-- An event whose title contains electronics keywords. -/
def evPhone : Event :=
  { title := "iphone 13 case", body_html := "", product_type := "", tags := "",
    variants := [mkVariant (some 1) none none] }

/-- An event whose title carries image markup. -/
def evImgTitle : Event :=
  { title := "Necklace <img src=x>", body_html := "", product_type := "",
    tags := "", variants := [] }

/-- An event whose source description carries image and figure markup. -/
def evImgBody : Event :=
  { title := "Moissanite Necklace S925",
    body_html := "<p>nice</p><img src=a.jpg><figure><img src=b.jpg></figure>",
    product_type := "", tags := "",
    variants := [mkVariant (some 1) (some "18 inch") none] }

/-- A gateway on which every fallible step succeeds (no competitor source
configured, one pre-provisioned collection lookup that finds nothing, no
product images). -/
def gwOk : Gateway :=
  { serpOn := false, compPrices := none, seoOk := true, descOk := true,
    tagsOk := true, priceRest := fun _ => RRes.ok, priceGql := fun _ => true,
    metafieldOk := true, collFind := fun _ => some none,
    collAdd := fun _ => true, images := some [], altSet := fun _ => true }

/-- Like `gwOk` but the SEO write reports user errors. -/
def gwSeoFail : Gateway := { gwOk with seoOk := false }

/-- Like `gwOk` but the tags write fails. -/
def gwTagsFail : Gateway := { gwOk with tagsOk := false }

/-- Like `gwOk` but the REST price write for the variant at position 0 fails
with an error other than a 404. -/
def gwRestErr0 : Gateway :=
  { gwOk with priceRest := fun i => if i = 0 then RRes.err else RRes.ok }

/-- Like `gwOk` but the REST price write for the variant at position 0 fails
with a 404 (not-found) error. -/
def gwNF0 : Gateway :=
  { gwOk with priceRest := fun i => if i = 0 then RRes.notFound else RRes.ok }

/-- The gateway responses that can make a fallible step fail all succeed. -/
def gatewayOk (g : Gateway) : Prop :=
  g.descOk = true ∧ g.tagsOk = true ∧ (∀ i, g.priceRest i = RRes.ok) ∧
  g.metafieldOk = true ∧ (∀ t, ¬ g.collFind t = none) ∧
  (∀ t, g.collAdd t = true) ∧ ¬ g.images = none ∧ (∀ i, g.altSet i = true) ∧
  (g.serpOn = true → ¬ g.compPrices = none)

/-- Head of a list is present and differs from both characters that can open
image or figure markup after a `<`. -/
def headNotIF : List Char → Bool
  | [] => false
  | d :: _ => ¬ (d = 'i' ∨ d = 'f')

/-- `okLt l`: no `<` in `l` is immediately followed by `i` or `f`, and `l`
does not end in `<`.  Lists with this property can be concatenated freely
without ever producing an `<img` or `<figure` substring. -/
def okLt : List Char → Bool
  | [] => true
  | c :: rest => (if c = '<' then headNotIF rest else true) && okLt rest

/-- The normalized gemstone names `inferStone` can return. -/
def stoneOutputs : List String :=
  ["Moissanite", "Amethyst", "Opal", "Agate", "Carnelian", "Rose Quartz",
   "Quartz", "Tiger" ++ rsqS ++ "s Eye", "Onyx", "Malachite", "Turquoise",
   "Zircon", "Cubic Zirconia", "Crystal", "Garnet", "Ruby", "Sapphire",
   "Emerald"]

/-! ## Helper lemmas -/

theorem jround_eq (q : ℚ) : jround q = ⌊q + 1/2⌋ := by
  rw [jround, Rat.floor_def]

theorem maxQ_eq (a b : ℚ) : maxQ a b = max a b := by
  rw [maxQ, max_def]

theorem minQ_eq (a b : ℚ) : minQ a b = min a b := by
  rw [minQ, min_def]

theorem maxZ_eq (a b : ℤ) : maxZ a b = max a b := by
  rw [maxZ, max_def]

theorem clamp_length (s : String) (n : ℕ) : (clamp s n).length ≤ n := by
  show ((collapseGo false (trimChars s.data)).take n).length ≤ n
  simpa using List.length_take_le n (collapseGo false (trimChars s.data))

theorem mem_addTag_self (l : List String) (t : String) : t ∈ addTag l t := by
  unfold addTag
  split
  · assumption
  · simp

/-! ## Claim theorems -/

/-- C6: for all inputs, the synthesized SEO title is at most 60 characters
long and the synthesized SEO meta description is at most 160 characters long
(characters counted after whitespace normalization, which `clamp` performs
before truncating). -/
theorem C6_seo_length (title description material ty : String) (stone : Option String) :
    ((seoFrom title description material ty stone).1).length ≤ 60 ∧
    ((seoFrom title description material ty stone).2).length ≤ 160 := by
  exact ⟨clamp_length _ 60, clamp_length _ 160⟩

/-- C7: the competitor benchmark is derived by filtering the raw sample to
the fixed absolute bounds, taking the (upper) median, multiplying by 1.10,
and applying the .99 rounding policy; an empty filtered sample yields no
benchmark.  On the raw sample [1, 50, 60, 70, 5000] with bounds (2, 2000)
the values 1 and 5000 are excluded and the result is 60 × 1.10 rounded to
66.99, on the v3 path whose bounds these are, and also on the v4 path. -/
theorem C7_benchmark :
    compFilterV3 [1, 50, 60, 70, 5000] = [50, 60, 70] ∧
    benchV3 [1, 50, 60, 70, 5000] = some (6699/100) ∧
    benchV4 [1, 50, 60, 70, 5000] = some (6699/100) ∧
    (∀ raw : List ℚ, compFilterV3 raw = [] → benchV3 raw = none) := by
  have hf3 : compFilterV3 [1, 50, 60, 70, 5000] = [50, 60, 70] := by decide
  have hf4 : compFilterV4 [1, 50, 60, 70, 5000] = [50, 60, 70] := by decide
  have hmed : medQ [50, 60, 70] = 60 := by decide
  refine ⟨hf3, ?_, ?_, ?_⟩
  · rw [benchV3, hf3]
    simp only [pickPriceFromCompetitorsV3, if_neg (by decide : ¬ ([50, 60, 70] : List ℚ) = []),
      hmed, round99, jround_eq, maxZ_eq]
    norm_num
  · rw [benchV4, hf4]
    simp only [pickPriceFromCompetitors, if_neg (by decide : ¬ ([50, 60, 70] : List ℚ) = []),
      hmed, jround_eq, minQ_eq, maxQ_eq]
    norm_num [min_def, max_def]
  · intro raw h
    rw [benchV3, h]
    decide

/-- Witness for C7: the empty-sample hypothesis discharged at the empty raw
sample. -/
theorem C7_benchmark_wit : benchV3 [] = none :=
  C7_benchmark.2.2.2 [] (by decide)

/-- C9 counterexample: on the empty input text the inferred tag set of the
v4 `inferTagsRich` is exactly ["gift"]; it contains no base category tag
(in particular not "Jewelry" and no product-category tag), refuting the
claim that a base category tag is always included. -/
theorem C9_tags_counterexample :
    inferTagsRich "" = ["gift"] ∧ ¬ "Jewelry" ∈ inferTagsRich "" ∧
    ¬ "necklaces" ∈ inferTagsRich "" := by
  decide

/-- C9 amended: for every input text the inferred tag set always includes a
"gift" tag, in addition to any conditional category, material,
gemstone-presence, and style/region/motif tags triggered by keywords; a base
category tag is only present when a category keyword matches. -/
theorem C9_tags_amended (s : String) : "gift" ∈ inferTagsRich s := by
  exact mem_addTag_self _ _

/-- C5 counterexample: on "Ruby S925 Ring" the claimed rules (any gemstone
name of the vocabulary together with a purity marker yields
silver-with-gemstone) give `s925+moissanite`, but the code, whose first rule
only tests the word "moissanite", gives `s925+plain`. -/
theorem C5_material_counterexample :
    materialSpecC5 "Ruby S925 Ring" = "s925+moissanite" ∧
    inferMaterial "Ruby S925 Ring" = "s925+plain" ∧
    ¬ materialSpecC5 "Ruby S925 Ring" = inferMaterial "Ruby S925 Ring" := by
  decide

/-- C5 amended: material inference is total, applying its rules in order with
first match winning, case-insensitively: the specific gemstone "moissanite"
together with a purity marker or "sterling" yields silver-with-gemstone; a
purity marker or "sterling silver" yields plain-silver; "stainless" yields
steel; any gemstone/crystal/alloy/plating keyword, and the default case,
yield alloy-with-stone — so every input text maps into the fixed material
enum. -/
theorem C5_material_amended :
    (∀ s : String, materialSpecC5Amended s = inferMaterial s) ∧
    (∀ s : String, inferMaterial s ∈ materialEnum) := by
  constructor
  · intro s
    simp only [materialSpecC5Amended, inferMaterial]
    split_ifs <;> rfl
  · intro s
    simp only [inferMaterial]
    split_ifs <;> decide

theorem noPrice_append {l1 l2 : List GCall} (h1 : ∀ c ∈ l1, priceOf c = none)
    (h2 : ∀ c ∈ l2, priceOf c = none) : ∀ c ∈ l1 ++ l2, priceOf c = none := by
  intro c hc
  rcases List.mem_append.mp hc with h | h
  · exact h1 c h
  · exact h2 c h

theorem noPrice_benchCalls (g : Gateway) : ∀ c ∈ benchCalls g, priceOf c = none := by
  intro c hc
  unfold benchCalls at hc
  split at hc
  · simp at hc
    subst hc
    rfl
  · simp at hc

theorem noPrice_collStep (g : Gateway) (t : String) :
    ∀ c ∈ (collStep g t).1, priceOf c = none := by
  intro c hc
  unfold collStep at hc
  split at hc <;> simp at hc
  · subst hc; rfl
  · subst hc; rfl
  · rcases hc with hc | hc <;> subst hc <;> rfl

theorem noPrice_altLoop (g : Gateway) (imgs : List Image) :
    ∀ c ∈ (altLoop g imgs).1, priceOf c = none := by
  induction imgs with
  | nil => intro c hc; simp [altLoop] at hc
  | cons img rest ih =>
    intro c hc
    unfold altLoop at hc
    split at hc
    · split at hc
      · simp at hc
        rcases hc with hc | hc
        · subst hc; rfl
        · exact ih c hc
      · simp at hc
        subst hc
        rfl
    · exact ih c hc

theorem noPrice_altStep (g : Gateway) : ∀ c ∈ (altStep g).1, priceOf c = none := by
  intro c hc
  unfold altStep at hc
  split at hc
  · simp at hc
    subst hc
    rfl
  · simp at hc
    rcases hc with hc | hc
    · subst hc; rfl
    · exact noPrice_altLoop g _ c hc

theorem noPrice_collMoissanite (g : Gateway) (m : String) :
    ∀ c ∈ (if m = "s925+moissanite" then collStep g "Moissanite Jewelry"
           else (([] : List GCall), true)).1, priceOf c = none := by
  split
  · exact noPrice_collStep g _
  · intro c hc
    simp at hc

theorem noPrice_seo : ∀ c ∈ [GCall.seoUpdate], priceOf c = none := by
  intro c hc
  simp at hc
  subst hc
  rfl

theorem noPrice_dt : ∀ c ∈ [GCall.descWrite, GCall.tagsWrite], priceOf c = none := by
  intro c hc
  simp at hc
  rcases hc with hc | hc <;> subst hc <;> rfl

theorem noPrice_meta : ∀ c ∈ [GCall.metafield], priceOf c = none := by
  intro c hc
  simp at hc
  subst hc
  rfl

/-- Every call trace of the handler splits into price-free segments around
(at most) the variant-loop segment. -/
theorem handle_trace_decomp (e : Event) (g : Gateway) :
    ∃ pre post : List GCall,
      ((handle e g).2 = pre ++ post ∨
       (handle e g).2 =
         pre ++ (runVariants g (inferMaterial (combined e)) (benchOf g)
                   e.variants.enum).1 ++ post) ∧
      (∀ c ∈ pre, priceOf c = none) ∧ (∀ c ∈ post, priceOf c = none) := by
  have hb := noPrice_benchCalls g
  have h01 := noPrice_append hb noPrice_seo
  have h02 := noPrice_append h01 noPrice_dt
  simp only [handle]
  split
  · exact ⟨[], [], Or.inl (by simp), by simp, by simp⟩
  · split
    · refine ⟨[GCall.compFetch], [], Or.inl (by simp), ?_, by simp⟩
      intro c hc
      simp at hc
      subst hc
      rfl
    · split
      · refine ⟨benchCalls g ++ [GCall.seoUpdate] ++ [GCall.descWrite], [],
          Or.inl (by simp), ?_, by simp⟩
        exact noPrice_append h01 (by intro c hc; simp at hc; subst hc; rfl)
      · split
        · exact ⟨benchCalls g ++ [GCall.seoUpdate] ++ [GCall.descWrite, GCall.tagsWrite],
            [], Or.inl (by simp), h02, by simp⟩
        · split
          · exact ⟨benchCalls g ++ [GCall.seoUpdate] ++ [GCall.descWrite, GCall.tagsWrite],
              [], Or.inr (by simp), h02, by simp⟩
          · split
            · exact ⟨benchCalls g ++ [GCall.seoUpdate] ++ [GCall.descWrite, GCall.tagsWrite],
                [GCall.metafield], Or.inr (by simp), h02, noPrice_meta⟩
            · split
              · exact ⟨benchCalls g ++ [GCall.seoUpdate] ++ [GCall.descWrite, GCall.tagsWrite],
                  [GCall.metafield] ++ (collStep g "Necklaces").1, Or.inr (by simp), h02,
                  noPrice_append noPrice_meta (noPrice_collStep g _)⟩
              · split
                · split
                  · exact ⟨benchCalls g ++ [GCall.seoUpdate] ++
                      [GCall.descWrite, GCall.tagsWrite],
                      [GCall.metafield] ++ (collStep g "Necklaces").1 ++
                        (collStep g "Moissanite Jewelry").1,
                      Or.inr (by simp), h02,
                      noPrice_append (noPrice_append noPrice_meta (noPrice_collStep g _))
                        (noPrice_collStep g _)⟩
                  · exact ⟨benchCalls g ++ [GCall.seoUpdate] ++
                      [GCall.descWrite, GCall.tagsWrite],
                      [GCall.metafield] ++ (collStep g "Necklaces").1 ++
                        (collStep g "Moissanite Jewelry").1 ++ (altStep g).1,
                      Or.inr (by simp), h02,
                      noPrice_append (noPrice_append (noPrice_append noPrice_meta
                        (noPrice_collStep g _)) (noPrice_collStep g _))
                        (noPrice_altStep g)⟩
                · exact ⟨benchCalls g ++ [GCall.seoUpdate] ++
                    [GCall.descWrite, GCall.tagsWrite],
                    [GCall.metafield] ++ (collStep g "Necklaces").1 ++ (altStep g).1,
                    Or.inr (by simp), h02,
                    noPrice_append (noPrice_append noPrice_meta (noPrice_collStep g _))
                      (noPrice_altStep g)⟩

/-- Every price in the variant-loop trace is the sanitised selected price of
some length option. -/
theorem runVariants_prices (g : Gateway) (m : String) (bench : Option ℚ) :
    ∀ (l : List (ℕ × Variant)) (q : ℚ),
      q ∈ (runVariants g m bench l).1.filterMap priceOf →
      ∃ mm, q = sanitisePrice (priceForVariant m bench mm) := by
  intro l
  induction l with
  | nil => intro q hq; simp [runVariants] at hq
  | cons p rest ih =>
    obtain ⟨i, v⟩ := p
    intro q hq
    unfold runVariants at hq
    split at hq
    · exact ih q hq
    · split at hq
      · simp only [List.filterMap_cons, priceOf] at hq
        rcases List.mem_cons.mp hq with hq | hq
        · exact ⟨vlen v, hq⟩
        · exact ih q hq
      · simp only [List.filterMap_cons, List.filterMap_nil, priceOf] at hq
        rcases List.mem_singleton.mp hq with hq
        exact ⟨vlen v, hq⟩
      · split at hq
        · simp only [List.filterMap_cons, priceOf] at hq
          rcases List.mem_cons.mp hq with hq | hq
          · exact ⟨vlen v, hq⟩
          · rcases List.mem_cons.mp hq with hq | hq
            · exact ⟨vlen v, hq⟩
            · exact ih q hq
        · simp only [List.filterMap_cons, List.filterMap_nil, priceOf] at hq
          rcases List.mem_cons.mp hq with hq | hq
          · exact ⟨vlen v, hq⟩
          · rcases List.mem_singleton.mp hq with hq
            exact ⟨vlen v, hq⟩

/-- Every price the handler writes is the sanitised selected price of some
length option. -/
theorem writtenPrices_sub (e : Event) (g : Gateway) :
    ∀ q ∈ writtenPrices e g,
      ∃ mm, q = sanitisePrice
        (priceForVariant (inferMaterial (combined e)) (benchOf g) mm) := by
  intro q hq
  obtain ⟨pre, post, hd, hpre, hpost⟩ := handle_trace_decomp e g
  have hpre0 : pre.filterMap priceOf = [] := List.filterMap_eq_nil.mpr hpre
  have hpost0 : post.filterMap priceOf = [] := List.filterMap_eq_nil.mpr hpost
  unfold writtenPrices at hq
  rcases hd with hd | hd <;> rw [hd] at hq
  · rw [List.filterMap_append, hpre0, hpost0] at hq
    simp at hq
  · rw [List.filterMap_append, List.filterMap_append, hpre0, hpost0] at hq
    simp only [List.nil_append, List.append_nil] at hq
    exact runVariants_prices g _ _ _ q hq

theorem jround_ge (z : ℤ) (q : ℚ) (h : (z : ℚ) ≤ q + 1/2) : z ≤ jround q := by
  rw [jround_eq]
  exact Int.le_floor.mpr h

theorem jround_le (z : ℤ) (q : ℚ) (h : q + 1/2 < (z : ℚ) + 1) : jround q ≤ z := by
  rw [jround_eq]
  have : ⌊q + 1/2⌋ < z + 1 := Int.floor_lt.mpr (by push_cast; linarith)
  omega

/-- Bounds on the v4 competitor pick: whatever the sample, the clamp step
confines the benchmark to [10.99, 400.99]. -/
theorem pick_bounds (l : List ℚ) (b : ℚ)
    (h : pickPriceFromCompetitors l = some b) :
    1099/100 ≤ b ∧ b ≤ 40099/100 := by
  unfold pickPriceFromCompetitors at h
  split at h
  · exact Option.noConfusion h
  · have hb := Option.some.inj h
    set c := minQ (maxQ (medQ l * (11/10)) (999/100)) (39999/100) with hc
    have hlo : (999/100 : ℚ) ≤ c := by
      rw [hc, minQ_eq, maxQ_eq]
      exact le_min (le_max_right _ _) (by norm_num)
    have hhi : c ≤ 39999/100 := by
      rw [hc, minQ_eq]
      exact min_le_right _ _
    have h10 : (10 : ℤ) ≤ jround c := jround_ge 10 c (by push_cast; linarith)
    have h400 : jround c ≤ 400 := jround_le 400 c (by push_cast; linarith)
    constructor
    · rw [← hb]
      have h10q : (10 : ℚ) ≤ (jround c : ℚ) := by exact_mod_cast h10
      linarith
    · rw [← hb]
      have h400q : (jround c : ℚ) ≤ (400 : ℚ) := by exact_mod_cast h400
      linarith

/-- The benchmark the handler uses is bounded whenever it is present. -/
theorem benchOf_bounds (g : Gateway) (b : ℚ) (h : benchOf g = some b) :
    1099/100 ≤ b ∧ b ≤ 40099/100 := by
  unfold benchOf at h
  split at h
  · exact pick_bounds _ b h
  · exact Option.noConfusion h

/-- The raw selected price is positive and at most 498.99 whatever the
material, benchmark and length. -/
theorem priceFor_bounds (m : String) (bench : Option ℚ) (mm : Option ℕ)
    (hb : ∀ b, bench = some b → 1099/100 ≤ b ∧ b ≤ 40099/100) :
    0 < priceForVariant m bench mm ∧ priceForVariant m bench mm ≤ 49899/100 := by
  unfold priceForVariant
  split
  · rcases mm with _ | m2
    · norm_num [ladderPriceForMoissanite]
    · simp only [ladderPriceForMoissanite]
      split_ifs <;> norm_num
  · rcases hbm : bench with _ | b
    · unfold fallbackPrice
      split_ifs <;> norm_num
    · have := hb b hbm
      constructor <;> linarith [this.1, this.2]

/-- The sanitisation step of `updateVariantPrice` maps any raw price in
(0, 498.99] to a value with fractional part .99 inside [6.99, 499.99]. -/
theorem sanitise_inv (raw : ℚ) (h1 : 0 < raw) (h2 : raw ≤ 49899/100) :
    (∃ n : ℤ, sanitisePrice raw = (n : ℚ) + 99/100) ∧
    699/100 ≤ sanitisePrice raw ∧ sanitisePrice raw ≤ 49999/100 := by
  have hp : ¬ raw ≤ 0 := not_le.mpr h1
  unfold sanitisePrice
  simp only [if_neg hp]
  set c := minQ (maxQ raw (699/100)) (49999/100) with hc
  have hlo : (699/100 : ℚ) ≤ c := by
    rw [hc, minQ_eq, maxQ_eq]
    exact le_min (le_max_right _ _) (by norm_num)
  have hhi : c ≤ 49899/100 := by
    rw [hc, minQ_eq, maxQ_eq]
    refine le_trans (min_le_left _ _) (max_le h2 (by norm_num))
  have h7 : (7 : ℤ) ≤ jround c := jround_ge 7 c (by push_cast; linarith)
  have h499 : jround c ≤ 499 := jround_le 499 c (by push_cast; linarith)
  refine ⟨⟨jround c, rfl⟩, ?_, ?_⟩
  · have h7q : (7 : ℚ) ≤ (jround c : ℚ) := by exact_mod_cast h7
    linarith
  · have h499q : (jround c : ℚ) ≤ (499 : ℚ) := by exact_mod_cast h499
    linarith

/-- C1: every variant price the pipeline computes and writes — over either
write path, whether it came from the length ladder, the competitor
benchmark, or the per-material fallback table — has fractional part exactly
.99 after rounding and lies within the configured sane window
[6.99, 499.99]; and any positive raw value outside the window is clamped
into it before rounding rather than rejected (the sanitised price of a raw
value equals the sanitised price of its clamped value). -/
theorem C1_price_invariant :
    (∀ (e : Event) (g : Gateway) (q : ℚ), q ∈ writtenPrices e g →
      (∃ n : ℤ, q = (n : ℚ) + 99/100) ∧ 699/100 ≤ q ∧ q ≤ 49999/100) ∧
    (∀ raw : ℚ, 0 < raw →
      sanitisePrice raw = sanitisePrice (minQ (maxQ raw (699/100)) (49999/100))) := by
  constructor
  · intro e g q hq
    obtain ⟨mm, hqe⟩ := writtenPrices_sub e g q hq
    have hb := fun b hb2 => benchOf_bounds g b hb2
    have hpf := priceFor_bounds (inferMaterial (combined e)) (benchOf g) mm hb
    rw [hqe]
    exact sanitise_inv _ hpf.1 hpf.2
  · intro raw hraw
    have hp : ¬ raw ≤ 0 := not_le.mpr hraw
    have hlo : (699/100 : ℚ) ≤ minQ (maxQ raw (699/100)) (49999/100) := by
      rw [minQ_eq, maxQ_eq]
      exact le_min (le_max_right _ _) (by norm_num)
    have hhi : minQ (maxQ raw (699/100)) (49999/100) ≤ 49999/100 := by
      rw [minQ_eq]
      exact min_le_right _ _
    have hp2 : ¬ minQ (maxQ raw (699/100)) (49999/100) ≤ 0 := by
      intro hcon
      linarith
    unfold sanitisePrice
    simp only [if_neg hp, if_neg hp2]
    have hfix : minQ (maxQ (minQ (maxQ raw (699/100)) (49999/100)) (699/100)) (49999/100) =
        minQ (maxQ raw (699/100)) (49999/100) := by
      rw [minQ_eq, maxQ_eq, max_eq_left hlo, min_eq_left hhi]
    rw [hfix]

/-- Witness for C1: the trace of a concrete successful run contains the
sanitised fallback price of its single variant, and that price satisfies the
invariant; the clamping identity is instantiated at the out-of-window raw
value 1000. -/
theorem C1_price_invariant_wit :
    ((∃ n : ℤ, sanitisePrice (priceForVariant (inferMaterial (combined evPlain))
        (benchOf gwOk) (vlen (mkVariant (some 1) none none))) = (n : ℚ) + 99/100) ∧
      699/100 ≤ sanitisePrice (priceForVariant (inferMaterial (combined evPlain))
        (benchOf gwOk) (vlen (mkVariant (some 1) none none))) ∧
      sanitisePrice (priceForVariant (inferMaterial (combined evPlain))
        (benchOf gwOk) (vlen (mkVariant (some 1) none none))) ≤ 49999/100) ∧
    sanitisePrice 1000 = sanitisePrice (minQ (maxQ 1000 (699/100)) (49999/100)) :=
  ⟨C1_price_invariant.1 evPlain gwOk _ (List.Mem.head _),
   C1_price_invariant.2 1000 (by decide)⟩

theorem runVariants_ok (g : Gateway) (m : String) (bench : Option ℚ)
    (hpr : ∀ i, g.priceRest i = RRes.ok) :
    ∀ l : List (ℕ × Variant), (runVariants g m bench l).2 = true := by
  intro l
  induction l with
  | nil => rfl
  | cons p rest ih =>
    obtain ⟨i, v⟩ := p
    unfold runVariants
    split
    · exact ih
    · rw [hpr i]
      exact ih

theorem collStep_ok (g : Gateway) (t : String) (hf : ¬ g.collFind t = none)
    (ha : g.collAdd t = true) : (collStep g t).2 = true := by
  unfold collStep
  split
  · rename_i hc
    exact absurd hc hf
  · rfl
  · exact ha

theorem altLoop_ok (g : Gateway) (has : ∀ i, g.altSet i = true) :
    ∀ imgs : List Image, (altLoop g imgs).2 = true := by
  intro imgs
  induction imgs with
  | nil => rfl
  | cons img rest ih =>
    unfold altLoop
    split
    · rw [has img.iid]
      simp only [if_true]
      exact ih
    · exact ih

theorem altStep_ok (g : Gateway) (him : ¬ g.images = none)
    (has : ∀ i, g.altSet i = true) : (altStep g).2 = true := by
  unfold altStep
  split
  · rename_i hc
    exact absurd hc him
  · exact altLoop_ok g has _

theorem upd_serpOn (g : Gateway) (b : Bool) :
    ({ g with seoOk := b } : Gateway).serpOn = g.serpOn := rfl

theorem upd_compPrices (g : Gateway) (b : Bool) :
    ({ g with seoOk := b } : Gateway).compPrices = g.compPrices := rfl

theorem upd_descOk (g : Gateway) (b : Bool) :
    ({ g with seoOk := b } : Gateway).descOk = g.descOk := rfl

theorem upd_tagsOk (g : Gateway) (b : Bool) :
    ({ g with seoOk := b } : Gateway).tagsOk = g.tagsOk := rfl

theorem upd_metafieldOk (g : Gateway) (b : Bool) :
    ({ g with seoOk := b } : Gateway).metafieldOk = g.metafieldOk := rfl

theorem benchCalls_seo (g : Gateway) (b : Bool) :
    benchCalls { g with seoOk := b } = benchCalls g := rfl

theorem benchOf_seo (g : Gateway) (b : Bool) :
    benchOf { g with seoOk := b } = benchOf g := rfl

theorem collStep_seo (g : Gateway) (b : Bool) (t : String) :
    collStep { g with seoOk := b } t = collStep g t := rfl

theorem altLoop_seo (g : Gateway) (b : Bool) :
    ∀ imgs : List Image, altLoop { g with seoOk := b } imgs = altLoop g imgs := by
  intro imgs
  induction imgs with
  | nil => rfl
  | cons img rest ih =>
    unfold altLoop
    split
    · split
      · rw [ih]
      · rfl
    · exact ih

theorem altStep_seo (g : Gateway) (b : Bool) :
    altStep { g with seoOk := b } = altStep g := by
  unfold altStep
  simp only [altLoop_seo]

theorem runVariants_seo (g : Gateway) (b : Bool) (m : String) (bench : Option ℚ) :
    ∀ l : List (ℕ × Variant),
      runVariants { g with seoOk := b } m bench l = runVariants g m bench l := by
  intro l
  induction l with
  | nil => rfl
  | cons p rest ih =>
    obtain ⟨i, v⟩ := p
    unfold runVariants
    cases v.gid with
    | none => exact ih
    | some gid =>
      have h2 : ({ g with seoOk := b } : Gateway).priceRest i = g.priceRest i := rfl
      rw [h2]
      cases g.priceRest i with
      | ok => rw [ih]
      | err => rfl
      | notFound =>
        have h3 : ({ g with seoOk := b } : Gateway).priceGql i = g.priceGql i := rfl
        rw [h3]
        cases g.priceGql i with
        | false => rfl
        | true => rw [ih]

/-- C2 counterexample: against a gateway on which the SEO write reports user
errors while every other step succeeds, the run still reports overall
success, so overall success is not equivalent to the required SEO step
succeeding; conversely a failure of the best-effort tags write alone makes
the run report failure. -/
theorem C2_outcome_counterexample :
    gwSeoFail.seoOk = false ∧ (handle evPlain gwSeoFail).1 = true ∧
    gwTagsFail.tagsOk = false ∧ (handle evPlain gwTagsFail).1 = false := by
  refine ⟨rfl, by decide, rfl, by decide⟩

/-- C2 amended: the outcome the run reports is entirely independent of the
SEO write's result (the SEO step only logs its errors); the run reports
success precisely when the fallible steps — competitor lookup when
configured, description write, tags write, variant price writes (with their
one 404 fallback), metafield write, collection lookup/add, image listing and
alt-text writes — all succeed, and a failure of any of them (here the tags
write) makes the whole run report failure. -/
theorem C2_outcome_amended :
    (∀ (e : Event) (g : Gateway) (b : Bool),
      handle e { g with seoOk := b } = handle e g) ∧
    (∀ (e : Event) (g : Gateway), gatewayOk g → (handle e g).1 = true) ∧
    (handle evPlain gwTagsFail).1 = false := by
  refine ⟨?_, ?_, by decide⟩
  · intro e g b
    simp only [handle, upd_serpOn, upd_compPrices, upd_descOk, upd_tagsOk,
      upd_metafieldOk, benchCalls_seo, benchOf_seo, collStep_seo, altStep_seo,
      runVariants_seo]
  · intro e g hok
    obtain ⟨hd, ht, hpr, hm, hcf, hca, him, has, hserp⟩ := hok
    have hrv := runVariants_ok g (inferMaterial (combined e)) (benchOf g) hpr
      e.variants.enum
    have hc1 := collStep_ok g "Necklaces" (hcf _) (hca _)
    have hc2 : (if inferMaterial (combined e) = "s925+moissanite" then
        collStep g "Moissanite Jewelry" else (([] : List GCall), true)).2 = true := by
      split
      · exact collStep_ok g _ (hcf _) (hca _)
      · rfl
    have ha := altStep_ok g him has
    have hserp2 : ¬ (g.serpOn = true ∧ g.compPrices = none) := by
      rintro ⟨h1, h2⟩
      exact hserp h1 h2
    simp only [handle]
    split
    · rfl
    · simp only [if_neg hserp2, hd, ht, hrv, hm, hc1, hc2, ha, not_true,
        if_false, ite_false, ite_true]

/-- Witness for C2: the all-steps-succeed hypothesis discharged at the
concrete all-ok gateway. -/
theorem C2_outcome_amended_wit : (handle evPlain gwOk).1 = true :=
  C2_outcome_amended.2.1 evPlain gwOk
    ⟨rfl, rfl, fun _ => rfl, rfl, fun _ h => Option.noConfusion h,
     fun _ => rfl, fun h => Option.noConfusion h, fun _ => rfl,
     fun h => Bool.noConfusion h⟩

theorem priceOf_none_gql (i : ℕ) (c : GCall) (h : priceOf c = none) :
    isGqlFor i c = false := by
  cases c <;> try rfl
  exact absurd h (by simp [priceOf])

theorem countP_cons_false {α : Type} {p : α → Bool} {c : α} {t : List α}
    (h : p c = false) : List.countP p (c :: t) = List.countP p t := by
  rw [List.countP_cons, h]
  simp

theorem countP_cons_true {α : Type} {p : α → Bool} {c : α} {t : List α}
    (h : p c = true) : List.countP p (c :: t) = List.countP p t + 1 := by
  rw [List.countP_cons, h]
  simp

theorem countP_enumFrom_gt (i : ℕ) (xs : List Variant) :
    ∀ k, i < k → (List.enumFrom k xs).countP (fun p => decide (p.1 = i)) = 0 := by
  induction xs with
  | nil => intro k _; rfl
  | cons x rest ih =>
    intro k hk
    show ((k, x) :: List.enumFrom (k + 1) rest).countP (fun p => decide (p.1 = i)) = 0
    rw [countP_cons_false (by simp; omega), ih (k + 1) (by omega)]

theorem countP_enumFrom_le (i : ℕ) (xs : List Variant) :
    ∀ k, (List.enumFrom k xs).countP (fun p => decide (p.1 = i)) ≤ 1 := by
  induction xs with
  | nil => intro k; simp [List.enumFrom]
  | cons x rest ih =>
    intro k
    show ((k, x) :: List.enumFrom (k + 1) rest).countP (fun p => decide (p.1 = i)) ≤ 1
    by_cases hk : k = i
    · subst hk
      rw [countP_cons_true (by simp), countP_enumFrom_gt k rest (k + 1) (by omega)]
    · rw [countP_cons_false (by simp; omega)]
      exact ih (k + 1)

theorem isGqlFor_rest (i j : ℕ) (q : ℚ) :
    isGqlFor i (GCall.priceRest j q) = false := rfl

theorem isGqlFor_gql (i j : ℕ) (q : ℚ) :
    isGqlFor i (GCall.priceGql j q) = decide (j = i) := rfl

theorem runVariants_countGql (g : Gateway) (m : String) (bench : Option ℚ) (i : ℕ) :
    ∀ l : List (ℕ × Variant),
      countGql i (runVariants g m bench l).1 ≤ l.countP (fun p => decide (p.1 = i)) ∧
      (1 ≤ countGql i (runVariants g m bench l).1 → g.priceRest i = RRes.notFound) := by
  intro l
  induction l with
  | nil => simp [runVariants, countGql]
  | cons p rest ih =>
    obtain ⟨j, v⟩ := p
    have ihc := ih.1
    have ihi := ih.2
    rw [countGql] at ihc ihi
    have hRt : (j = i) →
        ((j, v) :: rest).countP (fun p => decide (p.1 = i)) =
          rest.countP (fun p => decide (p.1 = i)) + 1 := by
      intro hji
      exact countP_cons_true (by simp [hji])
    have hRf : ¬ (j = i) →
        ((j, v) :: rest).countP (fun p => decide (p.1 = i)) =
          rest.countP (fun p => decide (p.1 = i)) := by
      intro hji
      exact countP_cons_false (by simp [hji])
    unfold runVariants
    rcases hgid : v.gid with _ | gid
    · simp only [hgid]
      refine ⟨le_trans ihc ?_, ihi⟩
      by_cases hji : j = i
      · rw [hRt hji]; omega
      · rw [hRf hji]
    · simp only [hgid]
      rcases hr : g.priceRest j with _ | _ | _
      · -- RRes.ok
        rw [countGql]
        simp only [countP_cons_false (isGqlFor_rest i j _)]
        constructor
        · refine le_trans ihc ?_
          by_cases hji : j = i
          · rw [hRt hji]; omega
          · rw [hRf hji]
        · exact ihi
      · -- RRes.notFound
        rcases hq : g.priceGql j with _ | _
        · -- fallback fails: loop stops after the two calls for this variant
          rw [if_neg (by simp), countGql]
          simp only [countP_cons_false (isGqlFor_rest i j _)]
          by_cases hji : j = i
          · subst hji
            rw [countP_cons_true (by rw [isGqlFor_gql]; simp), List.countP_nil]
            exact ⟨by rw [hRt rfl]; omega, fun _ => hr⟩
          · rw [countP_cons_false (by rw [isGqlFor_gql]; simp [hji]), List.countP_nil]
            exact ⟨by omega, fun h => absurd h (by omega)⟩
        · -- fallback succeeds: loop continues
          rw [if_pos rfl, countGql]
          simp only [countP_cons_false (isGqlFor_rest i j _)]
          by_cases hji : j = i
          · subst hji
            rw [countP_cons_true (by rw [isGqlFor_gql]; simp)]
            exact ⟨by rw [hRt rfl]; omega, fun _ => hr⟩
          · rw [countP_cons_false (by rw [isGqlFor_gql]; simp [hji])]
            refine ⟨le_trans ihc ?_, ihi⟩
            rw [hRf hji]
      · -- other REST error: loop aborts with the single call
        rw [countGql]
        simp only [countP_cons_false (isGqlFor_rest i j _), List.countP_nil]
        exact ⟨by omega, fun h => absurd h (by omega)⟩

theorem handle_countGql (e : Event) (g : Gateway) (i : ℕ) :
    countGql i (handle e g).2 ≤ 1 ∧
    (1 ≤ countGql i (handle e g).2 → g.priceRest i = RRes.notFound) := by
  obtain ⟨pre, post, hd, hpre, hpost⟩ := handle_trace_decomp e g
  have hpre0 : pre.countP (isGqlFor i) = 0 :=
    List.countP_eq_zero.mpr (fun c hc => by
      rw [priceOf_none_gql i c (hpre c hc)]
      simp)
  have hpost0 : post.countP (isGqlFor i) = 0 :=
    List.countP_eq_zero.mpr (fun c hc => by
      rw [priceOf_none_gql i c (hpost c hc)]
      simp)
  have hrv := runVariants_countGql g (inferMaterial (combined e)) (benchOf g) i
    e.variants.enum
  have henum : (e.variants.enum).countP (fun p => decide (p.1 = i)) ≤ 1 := by
    show (List.enumFrom 0 e.variants).countP (fun p => decide (p.1 = i)) ≤ 1
    exact countP_enumFrom_le i e.variants 0
  rcases hd with hd | hd <;> rw [hd]
  · rw [countGql, List.countP_append]
    constructor
    · omega
    · intro h
      omega
  · rw [countGql, List.countP_append, List.countP_append]
    have h1 := hrv.1
    rw [countGql] at h1
    constructor
    · omega
    · intro h
      apply hrv.2
      rw [countGql]
      omega

/-- C3 counterexample: with two variants, a REST price failure for the first
variant that is not a 404 aborts the run: no price write of either kind is
ever attempted for the second variant, refuting the claim that in every
failure case the remaining variants' price writes still proceed. -/
theorem C3_fallback_counterexample :
    gwRestErr0.priceRest 0 = RRes.err ∧
    (handle evTwo gwRestErr0).1 = false ∧
    (handle evTwo gwRestErr0).2.countP (isPriceFor 0) = 1 ∧
    (handle evTwo gwRestErr0).2.countP (isPriceFor 1) = 0 := by
  exact ⟨rfl, by decide, by decide, by decide⟩

/-- C3 amended: in any run at most one structured-mutation (GraphQL)
fallback price write is issued per variant, and one is issued only when that
variant's resource-style (REST) write failed with the not-found condition;
in a run that completes, the 404-stricken variant gets exactly one fallback
and the other variants none while their writes proceed; but any other
failure class is not retried and aborts the whole run, so the remaining
variants' price writes do not proceed. -/
theorem C3_fallback_amended :
    (∀ (e : Event) (g : Gateway) (i : ℕ), countGql i (handle e g).2 ≤ 1) ∧
    (∀ (e : Event) (g : Gateway) (i : ℕ),
      1 ≤ countGql i (handle e g).2 → g.priceRest i = RRes.notFound) ∧
    ((handle evTwo gwNF0).1 = true ∧ countGql 0 (handle evTwo gwNF0).2 = 1 ∧
     countGql 1 (handle evTwo gwNF0).2 = 0 ∧
     (handle evTwo gwNF0).2.countP (isPriceFor 1) = 1) ∧
    ((handle evTwo gwRestErr0).1 = false ∧
     (handle evTwo gwRestErr0).2.countP (isPriceFor 1) = 0) := by
  exact ⟨fun e g i => (handle_countGql e g i).1,
    fun e g i => (handle_countGql e g i).2,
    ⟨by decide, by decide, by decide, by decide⟩, ⟨by decide, by decide⟩⟩

/-- Witness for C3: the fallback-implies-404 hypothesis discharged on the
concrete run in which variant 0 receives its one fallback write. -/
theorem C3_fallback_amended_wit : gwNF0.priceRest 0 = RRes.notFound :=
  C3_fallback_amended.2.1 evTwo gwNF0 0 (by decide)

theorem dval_le_9 (c : Char) (h : isDigitB c = true) : dval c ≤ 9 := by
  simp only [isDigitB, Bool.and_eq_true, decide_eq_true_eq] at h
  unfold dval
  omega

theorem tryMM_range (l : List Char) :
    ∀ (pw : Bool) (n : ℕ), tryMM pw l = some n → 400 ≤ n ∧ n ≤ 599 := by
  induction l with
  | nil => intro pw n h; simp [tryMM] at h
  | cons c1 rest ih =>
    intro pw n h
    rcases rest with _ | ⟨c2, rest2⟩
    · exact Option.noConfusion h
    · rcases rest2 with _ | ⟨c3, t⟩
      · exact ih (isWordChar c1) n h
      · rw [tryMM] at h
        split at h
        · rename_i hc
          obtain ⟨-, h45, hd2, hd3, -⟩ := hc
          have b2 := dval_le_9 c2 hd2
          have b3 := dval_le_9 c3 hd3
          have hval : 100 * dval c1 + 10 * dval c2 + dval c3 = n := by
            exact Option.some.inj h
          rcases h45 with h4 | h5
          · subst h4
            have : dval '4' = 4 := by decide
            omega
          · subst h5
            have : dval '5' = 5 := by decide
            omega
        · exact ih _ _ h

theorem tryCM_range (l : List Char) :
    ∀ (pw : Bool) (n : ℕ), tryCM pw l = some n → 400 ≤ n ∧ n ≤ 599 := by
  induction l with
  | nil => intro pw n h; simp [tryCM] at h
  | cons c1 rest ih =>
    intro pw n h
    rcases rest with _ | ⟨c2, t⟩
    · simp [tryCM] at h
    · rw [tryCM] at h
      split at h
      · rename_i hc
        obtain ⟨-, h45, hd2, -⟩ := hc
        have b2 := dval_le_9 c2 hd2
        have hval : (10 * dval c1 + dval c2) * 10 = n := by
          exact Option.some.inj h
        rcases h45 with h4 | h5
        · subst h4
          have : dval '4' = 4 := by decide
          omega
        · subst h5
          have : dval '5' = 5 := by decide
          omega
      · exact ih _ _ h

theorem inchDigits_bounds (c1 c2 : Char) (h : inchDigitsOK c1 c2 = true) :
    16 ≤ 10 * dval c1 + dval c2 ∧ 10 * dval c1 + dval c2 ≤ 22 := by
  simp only [inchDigitsOK, Bool.or_eq_true, Bool.and_eq_true, decide_eq_true_eq] at h
  unfold dval
  rcases h with ⟨h1, h2⟩ | ⟨h1, h2⟩
  · subst h1
    have hc : ('1' : Char).toNat = 49 := by decide
    omega
  · subst h1
    have hc : ('2' : Char).toNat = 50 := by decide
    omega

theorem tryInch_range (l : List Char) :
    ∀ (pw : Bool) (n : ℕ), tryInch pw l = some n → 400 ≤ n ∧ n ≤ 599 := by
  induction l with
  | nil => intro pw n h; simp [tryInch] at h
  | cons c1 rest ih =>
    intro pw n h
    rcases rest with _ | ⟨c2, t⟩
    · simp [tryInch] at h
    · rw [tryInch] at h
      split at h
      · rename_i hc
        obtain ⟨-, hd, -⟩ := hc
        have hb := inchDigits_bounds c1 c2 hd
        have hval : inchVal (10 * dval c1 + dval c2) = n := Option.some.inj h
        unfold inchVal at hval
        omega
      · exact ih _ _ h

theorem parseLengthMM_range (s : String) (n : ℕ) (h : parseLengthMM s = some n) :
    400 ≤ n ∧ n ≤ 599 := by
  simp only [parseLengthMM] at h
  rcases hmm : tryMM false (lowerS s).data with _ | v
  · rcases hcm : tryCM false (lowerS s).data with _ | v2
    · rw [hmm, hcm] at h
      exact tryInch_range _ _ _ h
    · rw [hmm, hcm] at h
      cases h
      exact tryCM_range _ _ _ hcm
  · rw [hmm] at h
    cases h
    exact tryMM_range _ _ _ hmm

/-- C8 counterexample: on a variant whose title reads "18 inch" and whose
first option reads "450mm", pattern-major priority as claimed would yield
450 (the millimetre pattern matches an option string), but the code tries
the strings in order and parses the title first, yielding 457. -/
theorem C8_length_counterexample :
    vlen vC8 = some 457 ∧ vlenSpecC8 vC8 = some 450 ∧
    ¬ vlen vC8 = vlenSpecC8 vC8 := by
  decide

/-- C8 amended: per-variant length inference scans the variant's supplied
strings in order (title, then option1..option3) and, within each string,
tries the three patterns explicit millimetres in [400,599], explicit
centimetres in [40,59] times 10, explicit inches in [16,22] times 25.4
rounded; the first string yielding any match wins.  It returns none exactly
when no pattern matches any string, every returned length lies in
[400,599] millimetres, and "18 inch" yields 457 mm. -/
theorem C8_length_amended :
    parseLengthMM "18 inch" = some 457 ∧
    (∀ v : Variant,
      vlen v = none ↔
        parseLengthMMO v.vtitle = none ∧ parseLengthMMO v.option1 = none ∧
        parseLengthMMO v.option2 = none ∧ parseLengthMMO v.option3 = none) ∧
    (∀ (s : String) (n : ℕ), parseLengthMM s = some n → 400 ≤ n ∧ n ≤ 599) := by
  refine ⟨by decide, ?_, fun s n h => parseLengthMM_range s n h⟩
  intro v
  unfold vlen
  rcases h1 : parseLengthMMO v.vtitle with _ | n1 <;>
    rcases h2 : parseLengthMMO v.option1 with _ | n2 <;>
    rcases h3 : parseLengthMMO v.option2 with _ | n3 <;>
    rcases h4 : parseLengthMMO v.option3 with _ | n4 <;>
    simp [h1, h2, h3, h4]

/-- Witness for C8: the range hypothesis discharged at the concrete parse of
"450mm". -/
theorem C8_length_amended_wit : 400 ≤ 450 ∧ 450 ≤ 599 :=
  C8_length_amended.2.2 "450mm" 450 (by decide)

/-- C10: when the inbound product title matches the hardcoded electronics
keyword filter, the webhook handler performs no classification, pricing or
gateway write at all (the call trace is empty, so all external state is left
unchanged) and still responds to the caller with success. -/
theorem C10_skip_electronics (e : Event) (g : Gateway)
    (h : elecHit e.title = true) : handle e g = (true, []) := by
  simp [handle, h]

/-- Witness for C10 at a concrete electronics-titled event, against a gateway
on which any attempted write would have failed. -/
theorem C10_skip_electronics_wit : handle evPhone gwSeoFail = (true, []) :=
  C10_skip_electronics evPhone gwSeoFail (by decide)

/-! ## Substring infrastructure for the image-free invariant -/

theorem okLt_cons (c : Char) (rest : List Char) :
    okLt (c :: rest) = ((if c = '<' then headNotIF rest else true) && okLt rest) := rfl

theorem okLt_tail2 (c : Char) (rest : List Char) (h : okLt (c :: rest) = true) :
    okLt rest = true := by
  rw [okLt_cons, Bool.and_eq_true] at h
  exact h.2

theorem okLt_append (b : List Char) (hb : okLt b = true) :
    ∀ a : List Char, okLt a = true → okLt (a ++ b) = true := by
  intro a
  induction a with
  | nil => intro _; simpa using hb
  | cons c rest ih =>
    intro ha
    rw [List.cons_append, okLt_cons, Bool.and_eq_true]
    refine ⟨?_, ih (okLt_tail2 c rest ha)⟩
    rw [okLt_cons, Bool.and_eq_true] at ha
    rcases ha with ⟨ha1, -⟩
    by_cases hc : c = '<'
    · rw [if_pos hc] at ha1 ⊢
      rcases rest with _ | ⟨d, t⟩
      · simp [headNotIF] at ha1
      · exact ha1
    · rw [if_neg hc]

theorem okLtS_append (a b : String) (ha : okLt a.data = true)
    (hb : okLt b.data = true) : okLt (a ++ b).data = true := by
  rw [String.data_append]
  exact okLt_append b.data hb a.data ha

theorem okLt_of_no_lt (s : List Char) (h : ∀ c ∈ s, ¬ c = '<') : okLt s = true := by
  induction s with
  | nil => rfl
  | cons c rest ih =>
    rw [okLt_cons, Bool.and_eq_true]
    refine ⟨?_, ih (fun d hd => h d (List.mem_cons_of_mem c hd))⟩
    rw [if_neg (h c (List.mem_cons_self c rest))]

theorem leads_refl : ∀ l : List Char, leads l l = true := by
  intro l
  induction l with
  | nil => rfl
  | cons c rest ih =>
    rw [show leads (c :: rest) (c :: rest) = ((c = c : Bool) && leads rest rest) from rfl,
      ih]
    simp

theorem leads_hasSub (p s : List Char) (h : leads p s = true) : hasSub p s = true := by
  rcases s with _ | ⟨c, rest⟩
  · rcases p with _ | ⟨q, pr⟩
    · rfl
    · exact absurd h (by simp [leads])
  · rw [show hasSub p (c :: rest) = (leads p (c :: rest) || hasSub p rest) from rfl, h]
    rfl

theorem hasSub_cons_of (p : List Char) (c : Char) (rest : List Char)
    (h : hasSub p rest = true) : hasSub p (c :: rest) = true := by
  rw [show hasSub p (c :: rest) = (leads p (c :: rest) || hasSub p rest) from rfl, h,
    Bool.or_true]

theorem leads_append_split (p a b : List Char) (h : leads p (a ++ b) = true) :
    leads p a = true ∨ (∃ p2, p = a ++ p2 ∧ leads p2 b = true) := by
  induction a generalizing p with
  | nil => exact Or.inr ⟨p, rfl, by simpa using h⟩
  | cons c arest ih =>
    rcases p with _ | ⟨q, prest⟩
    · exact Or.inl rfl
    · rw [List.cons_append,
        show leads (q :: prest) (c :: (arest ++ b)) =
          ((q = c : Bool) && leads prest (arest ++ b)) from rfl,
        Bool.and_eq_true] at h
      obtain ⟨hqc, h2⟩ := h
      rcases ih prest h2 with h3 | ⟨p2, hp2, hb2⟩
      · left
        rw [show leads (q :: prest) (c :: arest) =
          ((q = c : Bool) && leads prest arest) from rfl, Bool.and_eq_true]
        exact ⟨hqc, h3⟩
      · right
        refine ⟨p2, ?_, hb2⟩
        have hqc2 : q = c := by simpa using hqc
        rw [hp2, hqc2]
        rfl

theorem hasSub_append_cases (p a b : List Char) (h : hasSub p (a ++ b) = true) :
    hasSub p a = true ∨ hasSub p b = true ∨
    ∃ a1 p1 p2, a = a1 ++ p1 ∧ p = p1 ++ p2 ∧ ¬ p1 = [] ∧ ¬ p2 = [] ∧
      leads p2 b = true := by
  induction a with
  | nil => exact Or.inr (Or.inl (by simpa using h))
  | cons c arest ih =>
    rw [List.cons_append,
      show hasSub p (c :: (arest ++ b)) =
        (leads p (c :: (arest ++ b)) || hasSub p (arest ++ b)) from rfl,
      Bool.or_eq_true] at h
    rcases h with h | h
    · rcases leads_append_split p (c :: arest) b (by rwa [List.cons_append]) with
        h2 | ⟨p2, hp2, hb2⟩
      · exact Or.inl (leads_hasSub _ _ h2)
      · rcases p2 with _ | ⟨x, xs⟩
        · left
          rw [hp2, List.append_nil]
          exact leads_hasSub _ _ (leads_refl _)
        · exact Or.inr (Or.inr ⟨[], c :: arest, x :: xs, by simp, hp2, by simp,
            by simp, hb2⟩)
    · rcases ih h with h2 | h2 | ⟨a1, p1, p2, ha1, hp1, hne1, hne2, hl⟩
      · exact Or.inl (hasSub_cons_of _ _ _ h2)
      · exact Or.inr (Or.inl h2)
      · exact Or.inr (Or.inr ⟨c :: a1, p1, p2, by rw [ha1]; rfl, hp1, hne1, hne2, hl⟩)

/-- A list satisfying `okLt` contains no occurrence of a pattern of the form
`<` followed by `i` or `f`. -/
theorem okLt_hasSub (d : Char) (hd : d = 'i' ∨ d = 'f') (p : List Char) :
    ∀ s : List Char, okLt s = true → hasSub ('<' :: d :: p) s = false := by
  intro s
  induction s with
  | nil => intro _; rfl
  | cons c rest ih =>
    intro h
    have htail := okLt_tail2 c rest h
    rw [show hasSub ('<' :: d :: p) (c :: rest) =
      (leads ('<' :: d :: p) (c :: rest) || hasSub ('<' :: d :: p) rest) from rfl,
      ih htail, Bool.or_false]
    by_cases hc : c = '<'
    · subst hc
      rw [okLt_cons, if_pos rfl, Bool.and_eq_true] at h
      rcases rest with _ | ⟨e, t⟩
      · simp [headNotIF] at h
      · have he : ¬ (e = 'i' ∨ e = 'f') := by
          have := h.1
          simp [headNotIF] at this
          tauto
        have hde : ¬ (d = e) := by
          rcases hd with rfl | rfl
          · exact fun hh => he (Or.inl hh.symm)
          · exact fun hh => he (Or.inr hh.symm)
        rw [show leads ('<' :: d :: p) ('<' :: e :: t) =
          ((('<' : Char) = '<' : Bool) && ((d = e : Bool) && leads p t)) from rfl]
        simp [hde]
    · have hcc : ¬ (('<' : Char) = c) := fun hh => hc hh.symm
      rw [show leads ('<' :: d :: p) (c :: rest) =
        ((('<' : Char) = c : Bool) && leads (d :: p) rest) from rfl]
      simp [hcc]

theorem head?_append_some {α : Type} (x y : List α) (c : α) (h : x.head? = some c) :
    (x ++ y).head? = some c := by
  rcases x with _ | ⟨a, t⟩
  · simp at h
  · simpa using h

/-- Shield lemma: a pattern that opens with `<`, continues without `<` and
contains no `>` cannot occur in `pre ++ (mid ++ post)` when it occurs in none
of the three parts, `pre` ends in `>`, and `post` begins with `<`. -/
theorem no_pat_triple (pat tl preL tD postD : List Char)
    (hpat : pat = '<' :: tl) (htl : ¬ ('<' : Char) ∈ tl) (hgt : ¬ ('>' : Char) ∈ pat)
    (hpre : hasSub pat preL = false)
    (hpreLast : preL.reverse.head? = some '>')
    (ht : hasSub pat tD = false)
    (hpost : hasSub pat postD = false)
    (hpostHead : postD.head? = some '<') :
    hasSub pat (preL ++ (tD ++ postD)) = false := by
  by_contra hcon
  rw [Bool.not_eq_false] at hcon
  have straddleR : ∀ p1 p2 : List Char, pat = p1 ++ p2 → ¬ p1 = [] → ¬ p2 = [] →
      leads p2 postD = true → False := by
    intro p1 p2 hp1 hne1 hne2 hl
    rcases p1 with _ | ⟨x, p1t⟩
    · exact hne1 rfl
    · rw [hpat, List.cons_append] at hp1
      have hx := List.cons.inj hp1
      rcases p2 with _ | ⟨y, p2t⟩
      · exact hne2 rfl
      · have hy_mem : y ∈ tl := by
          rw [hx.2]
          exact List.mem_append.mpr (Or.inr (List.mem_cons_self y p2t))
        rcases postD with _ | ⟨z, zrest⟩
        · simp at hpostHead
        · have hz : z = '<' := by simpa using hpostHead
          rw [show leads (y :: p2t) (z :: zrest) =
            ((y = z : Bool) && leads p2t zrest) from rfl, Bool.and_eq_true] at hl
          have hyz : y = z := by simpa using hl.1
          rw [hyz, hz] at hy_mem
          exact htl hy_mem
  have straddleL : ∀ a1 p1 p2 : List Char, preL = a1 ++ p1 → pat = p1 ++ p2 →
      ¬ p1 = [] → False := by
    intro a1 p1 p2 ha1 hp1 hne1
    rcases hp1t : p1.reverse with _ | ⟨w, wrest⟩
    · rw [List.reverse_eq_nil_iff] at hp1t
      exact hne1 hp1t
    · have hw_mem : w ∈ p1 := by
        rw [← List.mem_reverse, hp1t]
        exact List.mem_cons_self w wrest
      have hw : w = '>' := by
        rw [ha1, List.reverse_append, hp1t] at hpreLast
        simpa using hpreLast
      have hmem : ('>' : Char) ∈ pat := by
        rw [hp1]
        exact List.mem_append.mpr (Or.inl (hw ▸ hw_mem))
      exact hgt hmem
  rcases hasSub_append_cases _ _ _ hcon with h | h | ⟨a1, p1, p2, ha1, hp1, hne1, hne2, hl⟩
  · simp [hpre] at h
  · rcases hasSub_append_cases _ _ _ h with h2 | h2 | ⟨a1, p1, p2, ha1, hp1, hne1, hne2, hl⟩
    · simp [ht] at h2
    · simp [hpost] at h2
    · exact straddleR p1 p2 hp1 hne1 hne2 hl
  · exact straddleL a1 p1 p2 ha1 hp1 hne1

/-! ## okLt for the synthesized pieces -/

theorem altAt_mem (alts : List String) (l : List Char) (a : String)
    (h : altAt alts l = some a) : a ∈ alts := by
  unfold altAt at h
  obtain ⟨x, hx, hfx⟩ := List.exists_of_findSome?_eq_some h
  split at hfx
  · cases hfx
    exact hx
  · exact Option.noConfusion hfx

theorem findAlt_mem (alts : List String) :
    ∀ (l : List Char) (a : String), findAlt alts l = some a → a ∈ alts := by
  intro l
  induction l with
  | nil => intro a h; exact Option.noConfusion h
  | cons c rest ih =>
    intro a h
    unfold findAlt at h
    split at h
    · rename_i a2 ha2
      have hmem := altAt_mem alts _ a2 ha2
      have hae : a2 = a := Option.some.inj h
      rwa [hae] at hmem
    · exact ih a h

theorem inferStone_mem (t : String) (nm : String) (h : inferStone t = some nm) :
    nm ∈ stoneOutputs := by
  unfold inferStone at h
  split at h
  · exact Option.noConfusion h
  · rename_i s hs
    have hmem := findAlt_mem stoneAlts _ s hs
    have hnm : nm = normStone s := (Option.some.inj h).symm
    rw [hnm]
    rw [show stoneAlts = ["moissanite", "amethyst", "opal", "agate", "carnelian",
      "rose quartz", "quartz", "tiger" ++ apoS ++ "s eye", "tigers eye", "onyx",
      "malachite", "turquoise", "zircon", "cubic zirconia", "cz", "crystal",
      "garnet", "ruby", "sapphire", "emerald"] from rfl] at hmem
    simp only [List.mem_cons, List.not_mem_nil, or_false] at hmem
    rcases hmem with rfl | rfl | rfl | rfl | rfl | rfl | rfl | rfl | rfl | rfl |
      rfl | rfl | rfl | rfl | rfl | rfl | rfl | rfl | rfl | rfl <;> decide

theorem okLt_stoneOutputs : ∀ nm ∈ stoneOutputs, okLt nm.data = true := by
  decide

theorem inferType_mem (t p g : String) :
    inferType t p g ∈ ["Bracelet", "Earrings", "Ring", "Anklet", "Choker",
      "Tennis Necklace", "Pendant Necklace", "Chain Necklace", "Necklace",
      "Jewelry"] := by
  simp only [inferType]
  split_ifs <;> simp

theorem okLt_lower_type (t p g : String) :
    okLt (lowerS (inferType t p g)).data = true := by
  have h := inferType_mem t p g
  simp only [List.mem_cons, List.not_mem_nil, or_false] at h
  rcases h with h | h | h | h | h | h | h | h | h | h <;> rw [h] <;> decide

theorem okLt_materialLabelDesc (m : String) :
    okLt (materialLabelDesc m).data = true := by
  simp only [materialLabelDesc]
  split_ifs <;> decide

theorem okLt_stoneLine (st : Option String)
    (hst : ∀ nm, st = some nm → okLt nm.data = true) :
    okLt (stoneLine st).data = true := by
  rcases st with _ | nm
  · decide
  · show okLt (nm ++ " accents").data = true
    exact okLtS_append nm " accents" (hst nm rfl) (by decide)

theorem okLt_whyBullets (m ty : String) (st : Option String) :
    ∀ b ∈ whyBullets m ty st, okLt b.data = true := by
  intro b hb
  unfold whyBullets at hb
  rcases List.mem_append.mp hb with h | h
  · rcases st with _ | nm
    · simp at h
    · by_cases hms : hasSubS "moissanite" (lowerS nm) = true
      · have hbe : b = "Diamond-like brilliance with excellent fire" := by
          simpa [hms] using h
        rw [hbe]
        decide
      · simp [hms] at h
  · simp only [List.mem_cons, List.not_mem_nil, or_false] at h
    rcases h with h | h | h
    · rw [h]
      split <;> decide
    · rw [h]
      split <;> decide
    · rw [h]
      decide

theorem okLt_joinSep (sep : String) (hsep : okLt sep.data = true) :
    ∀ bs : List String, (∀ b ∈ bs, okLt b.data = true) →
      okLt (joinSep sep bs).data = true := by
  intro bs
  induction bs with
  | nil => intro _; rfl
  | cons x rest ih =>
    intro hall
    rcases rest with _ | ⟨y, rest2⟩
    · exact hall x (List.mem_cons_self x [])
    · show okLt (x ++ sep ++ joinSep sep (y :: rest2)).data = true
      refine okLtS_append _ _ (okLtS_append _ _ (hall x (List.mem_cons_self _ _)) hsep) ?_
      exact ih (fun b hb => hall b (List.mem_cons_of_mem x hb))

theorem okLt_bulletItems (m ty : String) (st : Option String) :
    okLt (bulletItems (whyBullets m ty st)).data = true := by
  unfold bulletItems
  refine okLt_joinSep "\n" (by decide) _ ?_
  intro b hb
  obtain ⟨b0, hb0, hbe⟩ := List.mem_map.mp hb
  rw [← hbe]
  exact okLtS_append _ _ (okLtS_append _ _ (by decide) (okLt_whyBullets m ty st b0 hb0))
    (by decide)

theorem natCharsGo_no_lt : ∀ fuel m, ∀ c ∈ natCharsGo fuel m, ¬ c = '<' := by
  intro fuel
  induction fuel with
  | zero => intro m c hc; simp [natCharsGo] at hc
  | succ fuel ih =>
    intro m c hc
    rw [natCharsGo] at hc
    split at hc
    · rename_i hm
      simp only [List.mem_singleton] at hc
      subst hc
      interval_cases m <;> decide
    · rcases List.mem_append.mp hc with h | h
      · exact ih (m / 10) c h
      · simp only [List.mem_singleton] at h
        subst h
        have hlt : m % 10 < 10 := Nat.mod_lt _ (by norm_num)
        set k := m % 10 with hk
        interval_cases k <;> decide

theorem okLt_natS (n : ℕ) : okLt (natS n).data = true := by
  exact okLt_of_no_lt _ (natCharsGo_no_lt (n + 1) n)

theorem okLt_sizeItem (mm : ℕ) : okLt (sizeItem mm).data = true := by
  unfold sizeItem
  refine okLtS_append _ _ (okLtS_append _ _ (okLtS_append _ _ (okLtS_append _ _
    (okLt_natS mm) (by decide)) (okLt_natS _)) (by decide)) (by decide)

theorem okLt_sizesStr (l : List ℕ) : okLt (sizesStr l).data = true := by
  unfold sizesStr
  split
  · decide
  · refine okLtS_append _ _ (okLtS_append _ _ (by decide) ?_) (by decide)
    refine okLt_joinSep ", " (by decide) _ ?_
    intro b hb
    obtain ⟨mm, -, hbe⟩ := List.mem_map.mp hb
    rw [← hbe]
    exact okLt_sizeItem mm

theorem okLt_stoneDetail (st : Option String)
    (hst : ∀ nm, st = some nm → okLt nm.data = true) :
    okLt (stoneDetail st).data = true := by
  rcases st with _ | nm
  · decide
  · show okLt ("<li>Stone: " ++ nm ++ "</li>").data = true
    exact okLtS_append _ _ (okLtS_append _ _ (by decide) (hst nm rfl)) (by decide)

theorem okLt_sizesDetail (l : List ℕ) : okLt (sizesDetail l).data = true := by
  unfold sizesDetail
  split
  · decide
  · exact okLtS_append _ _ (okLtS_append _ _ (by decide) (okLt_sizesStr l)) (by decide)

theorem okLt_tailHTML (ty m : String) (st : Option String) (lens : List ℕ)
    (hty : okLt (lowerS ty).data = true)
    (hst : ∀ nm, st = some nm → okLt nm.data = true) :
    okLt (buildProductHTMLTail ty m st lens).data = true := by
  unfold buildProductHTMLTail
  refine okLtS_append _ _ ?_ (by decide)
  refine okLtS_append _ _ ?_ (okLt_sizesDetail lens)
  refine okLtS_append _ _ ?_ (by decide)
  refine okLtS_append _ _ ?_ (okLt_stoneDetail st hst)
  refine okLtS_append _ _ ?_ (by decide)
  refine okLtS_append _ _ ?_ (okLt_materialLabelDesc m)
  refine okLtS_append _ _ ?_ (by decide)
  refine okLtS_append _ _ ?_ (okLt_bulletItems m ty st)
  refine okLtS_append _ _ ?_ (by decide)
  refine okLtS_append _ _ ?_ (by decide)
  refine okLtS_append _ _ ?_ (by decide)
  refine okLtS_append _ _ ?_ (okLt_stoneLine st hst)
  refine okLtS_append _ _ ?_ (by decide)
  refine okLtS_append _ _ ?_ (okLt_materialLabelDesc m)
  refine okLtS_append _ _ ?_ (by decide)
  exact okLtS_append _ _ (by decide) hty

/-- C4: the claim fails as stated: the handler interpolates the product title
verbatim into the generated HTML, so a title carrying image markup yields a
description containing an img tag. -/
theorem C4_imagefree_counterexample :
    hasSubS "<img" (descriptionHTMLFor evImgTitle) = true := by decide

/-- C4 (amended): the generated description HTML contains no img and no
figure element provided the product title itself carries neither; the
original body_html never reaches the output, so description-borne markup
cannot appear regardless. -/
theorem C4_imagefree_amended (e : Event)
    (hi : hasSubS "<img" e.title = false)
    (hf : hasSubS "<figure" e.title = false) :
    hasSubS "<img" (descriptionHTMLFor e) = false ∧
    hasSubS "<figure" (descriptionHTMLFor e) = false := by
  have htail : okLt (buildProductHTMLTail (inferType e.title e.product_type e.tags)
      (inferMaterial (combined e)) (inferStone (combined e)) (mmOptions e)).data = true :=
    okLt_tailHTML _ _ _ _ (okLt_lower_type e.title e.product_type e.tags)
      (fun nm hnm => okLt_stoneOutputs nm (inferStone_mem _ nm hnm))
  have hhead : (buildProductHTMLTail (inferType e.title e.product_type e.tags)
      (inferMaterial (combined e)) (inferStone (combined e))
      (mmOptions e)).data.head? = some ('<' : Char) := by
    unfold buildProductHTMLTail
    simp only [String.data_append]
    repeat
      apply head?_append_some
    decide
  have hdata : (descriptionHTMLFor e).data =
      ("\n<p><strong>" : String).data ++ (e.title.data ++
        (buildProductHTMLTail (inferType e.title e.product_type e.tags)
          (inferMaterial (combined e)) (inferStone (combined e))
          (mmOptions e)).data) := by
    simp only [descriptionHTMLFor, buildProductHTML, String.data_append,
      List.append_assoc]
  have hposti : hasSub ("<img" : String).data
      (buildProductHTMLTail (inferType e.title e.product_type e.tags)
        (inferMaterial (combined e)) (inferStone (combined e))
        (mmOptions e)).data = false := by
    rw [show ("<img" : String).data = '<' :: 'i' :: ("mg" : String).data from by decide]
    exact okLt_hasSub 'i' (Or.inl rfl) _ _ htail
  have hpostf : hasSub ("<figure" : String).data
      (buildProductHTMLTail (inferType e.title e.product_type e.tags)
        (inferMaterial (combined e)) (inferStone (combined e))
        (mmOptions e)).data = false := by
    rw [show ("<figure" : String).data = '<' :: 'f' :: ("igure" : String).data from by decide]
    exact okLt_hasSub 'f' (Or.inr rfl) _ _ htail
  constructor
  · show hasSub ("<img" : String).data (descriptionHTMLFor e).data = false
    rw [hdata]
    exact no_pat_triple _ ("img" : String).data _ _ _ (by decide) (by decide)
      (by decide) (by decide) (by decide) hi hposti hhead
  · show hasSub ("<figure" : String).data (descriptionHTMLFor e).data = false
    rw [hdata]
    exact no_pat_triple _ ("figure" : String).data _ _ _ (by decide) (by decide)
      (by decide) (by decide) (by decide) hf hpostf hhead

/-- Witness for the amended C4 at a concrete event whose source description
carries both img and figure markup but whose title is clean: the generated
description is free of both. -/
theorem C4_imagefree_amended_wit :
    (hasSubS "<img" evImgBody.title = false ∧
     hasSubS "<figure" evImgBody.title = false) ∧
    (hasSubS "<img" (descriptionHTMLFor evImgBody) = false ∧
     hasSubS "<figure" (descriptionHTMLFor evImgBody) = false) :=
  ⟨⟨by decide, by decide⟩,
   C4_imagefree_amended evImgBody (by decide) (by decide)⟩

end DTP
